import Mathlib

/-!
# Package undo: reversible actions and chains of them

A shallow embedding of `undo.go`.

* An action is a Go value of type `*Undo`: a pointer to a record holding the
  forward callback `exec`, the compensating callback `undo` and the mutable
  flag `committed`.  Pointers are addresses into a heap, so that the same
  instance may occur several times in one chain.
* The callbacks are closures over variables of the caller.  Two layers embed
  them.  In the first (`Undo`, `State`) a callback is a transformer of a
  caller world `W` and cannot reach the action records: this is the layer of
  callbacks that do not touch the actions.  In the second (`Closures`, `Mem`,
  namespace `Reentrant`) a closure transforms the whole memory, so it can call
  `Execute`, `Undo` or `Commit` on any action, itself included.  The section
  on simulation shows that the second layer, on closures over the caller world
  (`Closures.ofPlain`), computes what the first one does.
* The error type `E` is arbitrary and the Go value `nil` of type `error` is
  `none`.
* Pointers are valid (never `nil`), and callbacks are present and return:
  a panic or a callback that does not terminate is outside this development.
* Every invocation of a callback is recorded, in order, in the ghost field
  `calls` of the state.
-/

set_option linter.dupNamespace false

namespace undo

/-- Address of an action record: the value of a Go pointer of type `*Undo`. -/
abbrev Addr := Nat

/-- One callback invocation: the forward callback or the compensating callback
of the action at the given address. -/
inductive Call where
  | exec (p : Addr)
  | undo (p : Addr)
  deriving DecidableEq, Repr

/-- The record `type Undo struct { exec func() error; undo func(); committed bool }`. -/
structure Undo (W E : Type) where
  exec : W → Option E × W
  undo : W → W
  committed : Bool

/-- Program state: the heap of action records, the allocation frontier, the
variables of the caller and the log of callback invocations (oldest first). -/
structure State (W E : Type) where
  heap : Addr → Undo W E
  next : Addr
  world : W
  calls : List Call

variable {W E : Type}

/-- The assignment `u.committed = b` through the pointer `p`. -/
def State.setCommitted (s : State W E) (p : Addr) (b : Bool) : State W E :=
  { s with heap := Function.update s.heap p { s.heap p with committed := b } }

/-- Go `New(exec, undo)`: allocates `&Undo{exec, undo, false}` and returns the
pointer. -/
def New (exec : W → Option E × W) (undo : W → W) (s : State W E) : Addr × State W E :=
  (s.next,
    { s with
      heap := Function.update s.heap s.next { exec := exec, undo := undo, committed := false }
      next := s.next + 1 })

/-- Go `(u *Undo) Execute()`: `u.committed = false; return u.exec()`. -/
def Undo.Execute (p : Addr) (s : State W E) : Option E × State W E :=
  let s1 := s.setCommitted p false
  let r := (s1.heap p).exec s1.world
  (r.1, { s1 with world := r.2, calls := s1.calls ++ [Call.exec p] })

/-- Go `(u *Undo) Undo()`: `if !u.committed { u.committed = true; u.undo() }`. -/
def Undo.Undo (p : Addr) (s : State W E) : State W E :=
  if (s.heap p).committed = false then
    let s1 := s.setCommitted p true
    { s1 with world := (s1.heap p).undo s1.world, calls := s1.calls ++ [Call.undo p] }
  else s

/-- Go `(u *Undo) Commit()`: `u.committed = true`. -/
def Undo.Commit (p : Addr) (s : State W E) : State W E :=
  s.setCommitted p true

/-- Go `CommitAll(actions ...*Undo)`: `for _, a := range actions { a.Commit() }`. -/
def CommitAll : List Addr → State W E → State W E
  | [], s => s
  | a :: rest, s => CommitAll rest (Undo.Commit a s)

/-- The `for` loop of `ExecuteChain`.  The second argument is the stack of
deferred `a.Undo()` calls, most recently deferred first.  The first component
of the result is `some err` when the loop was left by `return err` and `none`
when the range was exhausted. -/
def ExecuteChain.loop : List Addr → List Addr → State W E → Option E × List Addr × State W E
  | [], deferred, s => (none, deferred, s)
  | a :: rest, deferred, s =>
    match Undo.Execute a s with
    | (some err, s1) => (some err, deferred, s1)
    | (none, s1) => ExecuteChain.loop rest (a :: deferred) s1

/-- Running the deferred `Undo` calls when the function returns: last
deferred, first run. -/
def ExecuteChain.runDeferred : List Addr → State W E → State W E
  | [], s => s
  | a :: rest, s => ExecuteChain.runDeferred rest (Undo.Undo a s)

/-- Go `ExecuteChain(actions ...*Undo) error`.  The returned value is fixed by
the `return` statement; the deferred calls run afterwards and cannot alter it. -/
def ExecuteChain (actions : List Addr) (s : State W E) : Option E × State W E :=
  match ExecuteChain.loop actions [] s with
  | (some err, deferred, s1) => (some err, ExecuteChain.runDeferred deferred s1)
  | (none, deferred, s1) => (none, ExecuteChain.runDeferred deferred (CommitAll actions s1))

/-! ## Vocabulary for stating properties of chains -/

/-- The forward callbacks currently stored in the heap. -/
def State.execOf (s : State W E) : Addr → W → Option E × W :=
  fun p => (s.heap p).exec

/-- The compensating callbacks currently stored in the heap. -/
def State.undoOf (s : State W E) : Addr → W → W :=
  fun p => (s.heap p).undo

/-- The committed flags currently stored in the heap. -/
def State.flags (s : State W E) : Addr → Bool :=
  fun p => (s.heap p).committed

/-- The caller world after the forward callbacks of the listed actions have
run one after the other, starting in `w`. -/
def forwardWorld (x : Addr → W → Option E × W) : List Addr → W → W
  | [], w => w
  | a :: rest, w => forwardWorld x rest (x a w).2

/-- Whether the forward callbacks of the listed actions, run one after the
other starting in `w`, all report success. -/
def forwardsSucceed (x : Addr → W → Option E × W) : List Addr → W → Bool
  | [], _ => true
  | a :: rest, w => (x a w).1.isNone && forwardsSucceed x rest (x a w).2

/-- The caller world after the compensating callbacks of the listed actions
have run one after the other, starting in `w`. -/
def backwardWorld (u : Addr → W → W) : List Addr → W → W
  | [], w => w
  | a :: rest, w => backwardWorld u rest (u a w)

/-! ## The scenario of the test suite -/

/-- The four logging actions of `TestExecuteChainError`, at addresses 0 to 3;
the caller world is the transcript.  Every other address holds an inert
record. -/
def testHeapError : Addr → Undo (List String) String
  | 0 => ⟨fun t => (none, t ++ ["execute action1"]), fun t => t ++ ["rollback action1"], false⟩
  | 1 => ⟨fun t => (none, t ++ ["execute action2"]), fun t => t ++ ["rollback action2"], false⟩
  | 2 => ⟨fun t => (some "oops, an error occurred", t ++ ["oops, action3 failed"]),
          fun t => t ++ ["rollback action3"], false⟩
  | 3 => ⟨fun t => (none, t ++ ["execute action4"]), fun t => t ++ ["rollback action4"], false⟩
  | _ => ⟨fun t => (none, t), fun t => t, true⟩

/-- The state in which `TestExecuteChainError` calls `ExecuteChain`. -/
def testStateError : State (List String) String :=
  { heap := testHeapError, next := 4, world := [], calls := [] }

/-- The four logging actions of `TestExecuteChainSuccess`. -/
def testHeapSuccess : Addr → Undo (List String) String
  | 2 => ⟨fun t => (none, t ++ ["execute action3"]), fun t => t ++ ["rollback action3"], false⟩
  | p => testHeapError p

/-- The state in which `TestExecuteChainSuccess` calls `ExecuteChain`. -/
def testStateSuccess : State (List String) String :=
  { heap := testHeapSuccess, next := 4, world := [], calls := [] }

/-- The state in which `TestUndo` calls `New`: nothing is allocated yet and
the caller world is the integer `num = 5`. -/
def testStateUndo : State Int String :=
  { heap := fun _ => ⟨fun n => (none, n), fun n => n, true⟩, next := 0, world := 5, calls := [] }

/-- The forward callback of `TestUndo`: `num++; return nil`. -/
def testInc : Int → Option String × Int := fun n => (none, n + 1)

/-- The compensating callback of `TestUndo`: `num--`. -/
def testDec : Int → Int := fun n => n - 1

/-- The state after `Execute` has been called on each listed action in turn,
whatever the outcomes. -/
def executeAll : List Addr → State W E → State W E
  | [], s => s
  | a :: rest, s => executeAll rest (Undo.Execute a s).2

/-- The actions whose compensating callback a run of the deferred calls
invokes, in order, given the committed flags at its start. -/
def pendingUndos (f : Addr → Bool) : List Addr → List Addr
  | [] => []
  | a :: rest =>
    if f a = false then a :: pendingUndos (Function.update f a true) rest
    else pendingUndos f rest

/-! ## Callers that drive one action -/

/-- One method call on an action, as a caller writes it: `u.Execute()`,
`u.Undo()` or `u.Commit()`. -/
inductive Op where
  | Execute
  | Undo
  | Commit
  deriving DecidableEq, Repr

/-- The effect of one method call on the action at `p`; the error returned by
`Execute` is dropped by this caller. -/
def Op.run (p : Addr) : Op → State W E → State W E
  | Op.Execute, s => (Undo.Execute p s).2
  | Op.Undo, s => Undo.Undo p s
  | Op.Commit, s => Undo.Commit p s

/-- A caller that makes the listed method calls on the action at `p`, one
after the other. -/
def runOps (p : Addr) : List Op → State W E → State W E
  | [], s => s
  | o :: rest, s => runOps p rest (o.run p s)

/-! ## The unwind stack of the design notes -/

/-- Pop and `Undo` until the stack is empty. -/
def UnwindStack.unwind : List Addr → State W E → State W E
  | [], s => s
  | a :: stack, s => UnwindStack.unwind stack (Undo.Undo a s)

/-- The explicit unwind-stack algorithm, written after the design notes and
not after `undo.go`: execute the actions in order and push each one that
succeeded; on the first failure pop and `Undo` until the stack is empty and
report the error; when every action succeeded drop the stack without undoing
anything. -/
def UnwindStack.run : List Addr → List Addr → State W E → Option E × State W E
  | [], _, s => (none, s)
  | a :: rest, stack, s =>
    match Undo.Execute a s with
    | (some err, s1) => (some err, UnwindStack.unwind stack s1)
    | (none, s1) => UnwindStack.run rest (a :: stack) s1

/-- The chain runner built on the unwind stack: on full success it commits
every action directly and calls no `Undo` at all. -/
def ExecuteChainUnwindStack (actions : List Addr) (s : State W E) : Option E × State W E :=
  match UnwindStack.run actions [] s with
  | (some err, s1) => (some err, s1)
  | (none, s1) => (none, CommitAll actions s1)

/-! ## A chain with a repeated instance -/

/-- An action whose forward callback succeeds on its first run and fails on
every later one (the caller world counts the runs), at every address; the
backward callback adds 10 to the counter. -/
def testHeapRetry : Addr → Undo Nat String :=
  fun _ => ⟨fun n => (if n = 0 then none else some "already done", n + 1), fun n => n + 10, false⟩

/-- A state holding the retry action, with the counter at 0. -/
def testStateRetry : State Nat String :=
  { heap := testHeapRetry, next := 1, world := 0, calls := [] }

/-! ## Closures that may call back into the actions

The records above hold callbacks that see the caller world only.  A Go
closure can also hold pointers to actions and call `Execute`, `Undo` or
`Commit` on them while it runs.  This second layer embeds the same functions
of `undo.go` for such closures. -/

/-- The mutable memory a closure runs in: the `committed` field of every
action record, the variables of the caller, and the log of callback
invocations (oldest first). -/
@[ext]
structure Mem (W : Type) where
  committed : Addr → Bool
  world : W
  calls : List Call

/-- The closures stored in the fields `exec` and `undo` of the action
records.  These two fields are written once, by `New`, and never assigned
again, so they form a fixed table indexed by the address of the record.  A
closure transforms the whole memory: it may change flags and, through the
methods it calls, invoke further callbacks. -/
structure Closures (W E : Type) where
  exec : Addr → Mem W → Option E × Mem W
  undo : Addr → Mem W → Mem W

/-- Go `(u *Undo) Execute()`: `u.committed = false; return u.exec()`.  The
invocation is logged when the closure is entered. -/
def Reentrant.Execute (c : Closures W E) (p : Addr) (m : Mem W) : Option E × Mem W :=
  c.exec p
    { m with committed := Function.update m.committed p false, calls := m.calls ++ [Call.exec p] }

/-- Go `(u *Undo) Undo()`: `if !u.committed { u.committed = true; u.undo() }`.
The invocation is logged when the closure is entered. -/
def Reentrant.Undo (c : Closures W E) (p : Addr) (m : Mem W) : Mem W :=
  if m.committed p = false then
    c.undo p
      { m with committed := Function.update m.committed p true, calls := m.calls ++ [Call.undo p] }
  else m

/-- Go `(u *Undo) Commit()`: `u.committed = true`. -/
def Reentrant.Commit (p : Addr) (m : Mem W) : Mem W :=
  { m with committed := Function.update m.committed p true }

/-- Go `CommitAll(actions ...*Undo)`: `for _, a := range actions { a.Commit() }`. -/
def Reentrant.CommitAll : List Addr → Mem W → Mem W
  | [], m => m
  | a :: rest, m => Reentrant.CommitAll rest (Reentrant.Commit a m)

/-- The `for` loop of `ExecuteChain`, with the stack of deferred `a.Undo()`
calls (most recently deferred first); `some err` when the loop was left by
`return err`. -/
def Reentrant.loop (c : Closures W E) :
    List Addr → List Addr → Mem W → Option E × List Addr × Mem W
  | [], deferred, m => (none, deferred, m)
  | a :: rest, deferred, m =>
    match Reentrant.Execute c a m with
    | (some err, m1) => (some err, deferred, m1)
    | (none, m1) => Reentrant.loop c rest (a :: deferred) m1

/-- Running the deferred `Undo` calls on return: last deferred, first run. -/
def Reentrant.runDeferred (c : Closures W E) : List Addr → Mem W → Mem W
  | [], m => m
  | a :: rest, m => Reentrant.runDeferred c rest (Reentrant.Undo c a m)

/-- Go `ExecuteChain(actions ...*Undo) error`. -/
def Reentrant.ExecuteChain (c : Closures W E) (actions : List Addr) (m : Mem W) :
    Option E × Mem W :=
  match Reentrant.loop c actions [] m with
  | (some err, deferred, m1) => (some err, Reentrant.runDeferred c deferred m1)
  | (none, deferred, m1) =>
    (none, Reentrant.runDeferred c deferred (Reentrant.CommitAll actions m1))

/-- Closures that do not touch the actions: each is a function of the caller
world alone, `x p` for the forward and `u p` for the backward callback of the
action at `p`; flags and log pass through unchanged. -/
def Closures.ofPlain (x : Addr → W → Option E × W) (u : Addr → W → W) : Closures W E :=
  { exec := fun p m => ((x p m.world).1, { m with world := (x p m.world).2 })
    undo := fun p m => { m with world := u p m.world } }

/-- The closure table of a state whose records hold callbacks over the caller
world. -/
def State.closures (s : State W E) : Closures W E :=
  Closures.ofPlain s.execOf s.undoOf

/-- The memory of a state whose records hold callbacks over the caller world. -/
def State.mem (s : State W E) : Mem W :=
  { committed := s.flags, world := s.world, calls := s.calls }

/-- The state whose records hold the callbacks `x p`, `u p` and the flags of
the memory `m`. -/
def stateOf (x : Addr → W → Option E × W) (u : Addr → W → W) (m : Mem W) : State W E :=
  { heap := fun p => { exec := x p, undo := u p, committed := m.committed p }
    next := 0
    world := m.world
    calls := m.calls }

/-! ## Actions whose closures call methods of actions -/

/-- The memory right after the actions have been constructed: `New` leaves
every flag `false`; the caller world is a counter at 0; nothing is logged. -/
def freshMem : Mem Nat :=
  { committed := fun _ => false, world := 0, calls := [] }

/-- Forward callbacks over the caller world: each adds 1 to the counter; the
one of action 2 reports the error `"failed"`, the others succeed. -/
def baseExec : Addr → Nat → Option String × Nat :=
  fun p n => (if p = 2 then some "failed" else none, n + 1)

/-- Backward callbacks over the caller world: each adds 10 to the counter. -/
def baseUndo : Addr → Nat → Nat :=
  fun _ n => n + 10

/-- Actions that do not touch one another. -/
def baseClosures : Closures Nat String :=
  Closures.ofPlain baseExec baseUndo

/-- As `baseClosures`, but the forward closure of `caller` is
`func() error { target.Undo(); return nil }`. -/
def closuresUndoOther (caller target : Addr) : Closures Nat String :=
  { exec := fun p m =>
      if p = caller then (none, Reentrant.Undo baseClosures target m) else baseClosures.exec p m
    undo := baseClosures.undo }

/-- As `baseClosures`, but the backward closure of action 0 is
`func() { u.Execute() }` with `u` action 0 itself. -/
def closuresReexecute : Closures Nat String :=
  { exec := baseClosures.exec
    undo := fun p m =>
      if p = 0 then (Reentrant.Execute baseClosures 0 m).2 else baseClosures.undo p m }

/-- As `baseClosures`, but the forward closure of `caller` is
`func() error { target.Commit(); return nil }`. -/
def closuresCommitOther (caller target : Addr) : Closures Nat String :=
  { exec := fun p m =>
      if p = caller then (none, Reentrant.Commit target m) else baseClosures.exec p m
    undo := baseClosures.undo }

/-- As `baseClosures`, but the forward closure of action 0 is
`func() error { n++; u.Commit(); if n > 1 { return errors.New("failed") }; return nil }`
with `u` action 0 itself and `n` the counter of the caller. -/
def closuresCommitAndRetry : Closures Nat String :=
  { exec := fun p m =>
      if p = 0 then
        (if m.world + 1 > 1 then some "failed" else none,
          Reentrant.Commit 0 { m with world := m.world + 1 })
      else baseClosures.exec p m
    undo := baseClosures.undo }

/-! ## Single operations -/

section ops

variable (p : Addr) (b : Bool) (s : State W E)

@[simp] theorem setCommitted_execOf : (s.setCommitted p b).execOf = s.execOf := by
  funext q
  by_cases h : q = p <;> simp [State.execOf, State.setCommitted, Function.update, h]

@[simp] theorem setCommitted_undoOf : (s.setCommitted p b).undoOf = s.undoOf := by
  funext q
  by_cases h : q = p <;> simp [State.undoOf, State.setCommitted, Function.update, h]

@[simp] theorem setCommitted_flags :
    (s.setCommitted p b).flags = Function.update s.flags p b := by
  funext q
  by_cases h : q = p <;> simp [State.flags, State.setCommitted, Function.update, h]

@[simp] theorem setCommitted_world : (s.setCommitted p b).world = s.world := rfl

@[simp] theorem setCommitted_calls : (s.setCommitted p b).calls = s.calls := rfl

@[simp] theorem setCommitted_next : (s.setCommitted p b).next = s.next := rfl

theorem heap_exec_eq (q : Addr) : (s.heap q).exec = s.execOf q := rfl

theorem heap_undo_eq (q : Addr) : (s.heap q).undo = s.undoOf q := rfl

theorem heap_committed_eq (q : Addr) : (s.heap q).committed = s.flags q := rfl

@[simp] theorem Execute_fst : (Undo.Execute p s).1 = (s.execOf p s.world).1 := by
  have h := congrFun (setCommitted_execOf p false s) p
  simp only [State.execOf] at h
  simp [Undo.Execute, State.execOf, h]

@[simp] theorem Execute_world : (Undo.Execute p s).2.world = (s.execOf p s.world).2 := by
  have h := congrFun (setCommitted_execOf p false s) p
  simp only [State.execOf] at h
  simp [Undo.Execute, State.execOf, h]

@[simp] theorem Execute_calls : (Undo.Execute p s).2.calls = s.calls ++ [Call.exec p] := rfl

@[simp] theorem Execute_next : (Undo.Execute p s).2.next = s.next := rfl

@[simp] theorem Execute_execOf : (Undo.Execute p s).2.execOf = s.execOf :=
  setCommitted_execOf p false s

@[simp] theorem Execute_undoOf : (Undo.Execute p s).2.undoOf = s.undoOf :=
  setCommitted_undoOf p false s

@[simp] theorem Execute_flags :
    (Undo.Execute p s).2.flags = Function.update s.flags p false :=
  setCommitted_flags p false s

@[simp] theorem Commit_execOf : (Undo.Commit p s).execOf = s.execOf :=
  setCommitted_execOf p true s

@[simp] theorem Commit_undoOf : (Undo.Commit p s).undoOf = s.undoOf :=
  setCommitted_undoOf p true s

@[simp] theorem Commit_flags : (Undo.Commit p s).flags = Function.update s.flags p true :=
  setCommitted_flags p true s

@[simp] theorem Commit_world : (Undo.Commit p s).world = s.world := rfl

@[simp] theorem Commit_calls : (Undo.Commit p s).calls = s.calls := rfl

@[simp] theorem Commit_next : (Undo.Commit p s).next = s.next := rfl

theorem Undo_of_committed (h : s.flags p = true) : Undo.Undo p s = s := by
  simp only [State.flags] at h
  simp [Undo.Undo, h]

theorem Undo_calls_of_armed (h : s.flags p = false) :
    (Undo.Undo p s).calls = s.calls ++ [Call.undo p] := by
  simp only [State.flags] at h
  simp [Undo.Undo, h]

theorem Undo_world_of_armed (h : s.flags p = false) :
    (Undo.Undo p s).world = s.undoOf p s.world := by
  have hu := congrFun (setCommitted_undoOf p true s) p
  simp only [State.flags] at h
  simp only [State.undoOf] at hu
  simp [Undo.Undo, h, State.undoOf, hu]

theorem Undo_flags_of_armed (h : s.flags p = false) :
    (Undo.Undo p s).flags = Function.update s.flags p true := by
  have hf := setCommitted_flags p true s
  simp only [State.flags] at h
  simp only [Undo.Undo, h, if_true]
  exact hf

@[simp] theorem Undo_execOf : (Undo.Undo p s).execOf = s.execOf := by
  by_cases h : (s.heap p).committed = false
  · have he := setCommitted_execOf p true s
    simp only [Undo.Undo, h, if_true]
    exact he
  · simp [Undo.Undo, h]

@[simp] theorem Undo_undoOf : (Undo.Undo p s).undoOf = s.undoOf := by
  by_cases h : (s.heap p).committed = false
  · have he := setCommitted_undoOf p true s
    simp only [Undo.Undo, h, if_true]
    exact he
  · simp [Undo.Undo, h]

@[simp] theorem Undo_next : (Undo.Undo p s).next = s.next := by
  by_cases h : (s.heap p).committed = false <;> simp [Undo.Undo, h]

@[simp] theorem Undo_flags_self : (Undo.Undo p s).flags p = true := by
  by_cases h : s.flags p = false
  · simp [Undo_flags_of_armed p s h]
  · have h1 : s.flags p = true := by simpa using h
    rw [Undo_of_committed p s h1]
    exact h1

theorem Undo_Undo : Undo.Undo p (Undo.Undo p s) = Undo.Undo p s :=
  Undo_of_committed p _ (Undo_flags_self p s)

theorem Undo_iterate_succ (n : Nat) : (Undo.Undo p)^[n + 1] s = Undo.Undo p s := by
  rw [Function.iterate_succ_apply]
  exact Function.iterate_fixed (Undo_Undo p s) n

end ops

/-! ## Lists of operations -/

section lists

variable (s : State W E)

@[simp] theorem executeAll_execOf (l : List Addr) (s : State W E) :
    (executeAll l s).execOf = s.execOf := by
  induction l generalizing s with
  | nil => rfl
  | cons a l ih => simp [executeAll, ih]

@[simp] theorem executeAll_undoOf (l : List Addr) (s : State W E) :
    (executeAll l s).undoOf = s.undoOf := by
  induction l generalizing s with
  | nil => rfl
  | cons a l ih => simp [executeAll, ih]

theorem executeAll_calls (l : List Addr) (s : State W E) :
    (executeAll l s).calls = s.calls ++ l.map Call.exec := by
  induction l generalizing s with
  | nil => simp [executeAll]
  | cons a l ih => simp [executeAll, ih]

theorem executeAll_world (l : List Addr) (s : State W E) :
    (executeAll l s).world = forwardWorld s.execOf l s.world := by
  induction l generalizing s with
  | nil => rfl
  | cons a l ih => simp [executeAll, ih, forwardWorld]

theorem executeAll_flags (l : List Addr) (s : State W E) (q : Addr) :
    (executeAll l s).flags q = (s.flags q && !decide (q ∈ l)) := by
  induction l generalizing s with
  | nil => simp [executeAll]
  | cons a l ih =>
    simp only [executeAll, ih, Execute_flags]
    by_cases h : q = a
    · subst h; simp
    · simp [Function.update, h]

@[simp] theorem CommitAll_execOf (l : List Addr) (s : State W E) :
    (CommitAll l s).execOf = s.execOf := by
  induction l generalizing s with
  | nil => rfl
  | cons a l ih => simp [CommitAll, ih]

@[simp] theorem CommitAll_undoOf (l : List Addr) (s : State W E) :
    (CommitAll l s).undoOf = s.undoOf := by
  induction l generalizing s with
  | nil => rfl
  | cons a l ih => simp [CommitAll, ih]

@[simp] theorem CommitAll_world (l : List Addr) (s : State W E) :
    (CommitAll l s).world = s.world := by
  induction l generalizing s with
  | nil => rfl
  | cons a l ih => simp [CommitAll, ih]

@[simp] theorem CommitAll_calls (l : List Addr) (s : State W E) :
    (CommitAll l s).calls = s.calls := by
  induction l generalizing s with
  | nil => rfl
  | cons a l ih => simp [CommitAll, ih]

@[simp] theorem CommitAll_next (l : List Addr) (s : State W E) :
    (CommitAll l s).next = s.next := by
  induction l generalizing s with
  | nil => rfl
  | cons a l ih => simp [CommitAll, ih]

theorem CommitAll_flags (l : List Addr) (s : State W E) (q : Addr) :
    (CommitAll l s).flags q = (s.flags q || decide (q ∈ l)) := by
  induction l generalizing s with
  | nil => simp [CommitAll]
  | cons a l ih =>
    simp only [CommitAll, ih, Commit_flags]
    by_cases h : q = a
    · subst h; simp
    · simp [Function.update, h]

theorem pendingUndos_congr (f g : Addr → Bool) (d : List Addr)
    (h : ∀ q ∈ d, f q = g q) : pendingUndos f d = pendingUndos g d := by
  induction d generalizing f g with
  | nil => rfl
  | cons a d ih =>
    have ha : f a = g a := h a (List.mem_cons_self a d)
    have hd : ∀ q ∈ d, f q = g q := fun q hq => h q (List.mem_cons_of_mem a hq)
    have hu : ∀ q ∈ d, Function.update f a true q = Function.update g a true q := by
      intro q hq
      by_cases hqa : q = a
      · subst hqa; rw [Function.update_same, Function.update_same]
      · rw [Function.update_noteq hqa, Function.update_noteq hqa]; exact hd q hq
    simp only [pendingUndos, ha, ih f g hd, ih _ _ hu]

theorem pendingUndos_of_committed (f : Addr → Bool) (d : List Addr)
    (h : ∀ q ∈ d, f q = true) : pendingUndos f d = [] := by
  induction d with
  | nil => rfl
  | cons a d ih =>
    have ha : f a = true := h a (List.mem_cons_self a d)
    simp [pendingUndos, ha, ih (fun q hq => h q (List.mem_cons_of_mem a hq))]

theorem pendingUndos_of_nodup (f : Addr → Bool) (d : List Addr) (hd : d.Nodup)
    (h : ∀ q ∈ d, f q = false) : pendingUndos f d = d := by
  induction d generalizing f with
  | nil => rfl
  | cons a d ih =>
    have ha : f a = false := h a (List.mem_cons_self a d)
    have hnd := List.nodup_cons.mp hd
    have hu : ∀ q ∈ d, Function.update f a true q = false := by
      intro q hq
      have hqa : q ≠ a := fun e => hnd.1 (e ▸ hq)
      simp [Function.update, hqa, h q (List.mem_cons_of_mem a hq)]
    simp [pendingUndos, ha, ih _ hnd.2 hu]

theorem mem_of_mem_pendingUndos (f : Addr → Bool) (d : List Addr) (q : Addr)
    (h : q ∈ pendingUndos f d) : q ∈ d := by
  induction d generalizing f with
  | nil => simp [pendingUndos] at h
  | cons a d ih =>
    by_cases ha : f a = false
    · simp only [pendingUndos, ha, if_true, List.mem_cons] at h
      rcases h with h | h
      · exact h ▸ List.mem_cons_self a d
      · exact List.mem_cons_of_mem a (ih _ h)
    · simp only [pendingUndos, ha, if_false] at h
      exact List.mem_cons_of_mem a (ih _ h)

@[simp] theorem runDeferred_execOf (d : List Addr) (s : State W E) :
    (ExecuteChain.runDeferred d s).execOf = s.execOf := by
  induction d generalizing s with
  | nil => rfl
  | cons a d ih => simp [ExecuteChain.runDeferred, ih]

@[simp] theorem runDeferred_undoOf (d : List Addr) (s : State W E) :
    (ExecuteChain.runDeferred d s).undoOf = s.undoOf := by
  induction d generalizing s with
  | nil => rfl
  | cons a d ih => simp [ExecuteChain.runDeferred, ih]

@[simp] theorem runDeferred_next (d : List Addr) (s : State W E) :
    (ExecuteChain.runDeferred d s).next = s.next := by
  induction d generalizing s with
  | nil => rfl
  | cons a d ih => simp [ExecuteChain.runDeferred, ih]

theorem runDeferred_calls (d : List Addr) (s : State W E) :
    (ExecuteChain.runDeferred d s).calls
      = s.calls ++ (pendingUndos s.flags d).map Call.undo := by
  induction d generalizing s with
  | nil => simp [ExecuteChain.runDeferred, pendingUndos]
  | cons a d ih =>
    by_cases ha : s.flags a = false
    · simp [ExecuteChain.runDeferred, pendingUndos, ha, ih, Undo_flags_of_armed a s ha,
        Undo_calls_of_armed a s ha]
    · have ha1 : s.flags a = true := by simpa using ha
      simp [ExecuteChain.runDeferred, pendingUndos, ha1, ih, Undo_of_committed a s ha1]

theorem runDeferred_world (d : List Addr) (s : State W E) :
    (ExecuteChain.runDeferred d s).world
      = backwardWorld s.undoOf (pendingUndos s.flags d) s.world := by
  induction d generalizing s with
  | nil => simp [ExecuteChain.runDeferred, pendingUndos, backwardWorld]
  | cons a d ih =>
    by_cases ha : s.flags a = false
    · simp [ExecuteChain.runDeferred, pendingUndos, ha, ih, Undo_flags_of_armed a s ha,
        Undo_world_of_armed a s ha, backwardWorld]
    · have ha1 : s.flags a = true := by simpa using ha
      simp [ExecuteChain.runDeferred, pendingUndos, ha1, ih, Undo_of_committed a s ha1]

theorem runDeferred_flags (d : List Addr) (s : State W E) (q : Addr) :
    (ExecuteChain.runDeferred d s).flags q = (s.flags q || decide (q ∈ d)) := by
  induction d generalizing s with
  | nil => simp [ExecuteChain.runDeferred]
  | cons a d ih =>
    by_cases ha : s.flags a = false
    · simp only [ExecuteChain.runDeferred, ih, Undo_flags_of_armed a s ha]
      by_cases h : q = a
      · subst h; simp
      · simp [Function.update, h]
    · have ha1 : s.flags a = true := by simpa using ha
      simp only [ExecuteChain.runDeferred, ih, Undo_of_committed a s ha1]
      by_cases h : q = a
      · subst h; simp [ha1]
      · simp [h]

theorem runDeferred_of_committed (d : List Addr) (s : State W E)
    (h : ∀ q ∈ d, s.flags q = true) : ExecuteChain.runDeferred d s = s := by
  induction d with
  | nil => rfl
  | cons a d ih =>
    rw [ExecuteChain.runDeferred, Undo_of_committed a s (h a (List.mem_cons_self a d))]
    exact ih (fun q hq => h q (List.mem_cons_of_mem a hq))

end lists

/-! ## The loop and the two ways of leaving it -/

section chain

theorem loop_cons_of_success (a : Addr) (rest d : List Addr) (s : State W E)
    (h : (s.execOf a s.world).1 = none) :
    ExecuteChain.loop (a :: rest) d s
      = ExecuteChain.loop rest (a :: d) (Undo.Execute a s).2 := by
  have h1 : (Undo.Execute a s).1 = none := by rw [Execute_fst]; exact h
  rw [ExecuteChain.loop]
  rcases hx : Undo.Execute a s with ⟨r, s1⟩
  rw [hx] at h1
  simp only at h1
  subst h1
  rfl

theorem loop_cons_of_failure (a : Addr) (rest d : List Addr) (s : State W E) (e : E)
    (h : (s.execOf a s.world).1 = some e) :
    ExecuteChain.loop (a :: rest) d s = (some e, d, (Undo.Execute a s).2) := by
  have h1 : (Undo.Execute a s).1 = some e := by rw [Execute_fst]; exact h
  rw [ExecuteChain.loop]
  rcases hx : Undo.Execute a s with ⟨r, s1⟩
  rw [hx] at h1
  simp only at h1
  subst h1
  rfl

theorem loop_append_of_succeed (pre rest d : List Addr) (s : State W E)
    (h : forwardsSucceed s.execOf pre s.world = true) :
    ExecuteChain.loop (pre ++ rest) d s
      = ExecuteChain.loop rest (pre.reverse ++ d) (executeAll pre s) := by
  induction pre generalizing d s with
  | nil => rfl
  | cons a l ih =>
    simp only [forwardsSucceed, Bool.and_eq_true, Option.isNone_iff_eq_none] at h
    have h2 : forwardsSucceed (Undo.Execute a s).2.execOf l (Undo.Execute a s).2.world = true := by
      rw [Execute_execOf, Execute_world]; exact h.2
    rw [List.cons_append, loop_cons_of_success a (l ++ rest) d s h.1, ih (a :: d) _ h2]
    simp [executeAll]

theorem ExecuteChain_of_succeed (chain : List Addr) (s : State W E)
    (h : forwardsSucceed s.execOf chain s.world = true) :
    ExecuteChain chain s = (none, CommitAll chain (executeAll chain s)) := by
  have hl := loop_append_of_succeed chain [] [] s h
  simp only [List.append_nil] at hl
  have hc : ∀ q ∈ chain.reverse, (CommitAll chain (executeAll chain s)).flags q = true := by
    intro q hq
    simp [CommitAll_flags, List.mem_reverse.mp hq]
  simp only [ExecuteChain, hl, ExecuteChain.loop, runDeferred_of_committed _ _ hc]

theorem ExecuteChain_of_failure (pre post : List Addr) (a : Addr) (e : E) (s : State W E)
    (h : forwardsSucceed s.execOf pre s.world = true)
    (ha : (s.execOf a (forwardWorld s.execOf pre s.world)).1 = some e) :
    ExecuteChain (pre ++ a :: post) s
      = (some e, ExecuteChain.runDeferred pre.reverse (Undo.Execute a (executeAll pre s)).2) := by
  have ha2 : ((executeAll pre s).execOf a (executeAll pre s).world).1 = some e := by
    rw [executeAll_execOf, executeAll_world]; exact ha
  have hl := loop_append_of_succeed pre (a :: post) [] s h
  rw [loop_cons_of_failure a post _ _ e ha2] at hl
  simp only [List.append_nil] at hl
  simp only [ExecuteChain, hl]

theorem exists_first_failure (x : Addr → W → Option E × W) (l : List Addr) (w : W)
    (h : forwardsSucceed x l w = false) :
    ∃ pre a post e, l = pre ++ a :: post ∧ forwardsSucceed x pre w = true ∧
      (x a (forwardWorld x pre w)).1 = some e := by
  induction l generalizing w with
  | nil => simp [forwardsSucceed] at h
  | cons b l ih =>
    cases hb : (x b w).1 with
    | some e => exact ⟨[], b, l, e, rfl, rfl, hb⟩
    | none =>
      have h2 : forwardsSucceed x l (x b w).2 = false := by
        simpa [forwardsSucceed, hb] using h
      obtain ⟨pre, a, post, e, hl, hs, he⟩ := ih _ h2
      refine ⟨b :: pre, a, post, e, by rw [hl]; rfl, ?_, ?_⟩
      · simp [forwardsSucceed, hb, hs]
      · simpa [forwardWorld] using he

theorem forwardsSucceed_of_failure (x : Addr → W → Option E × W) (pre post : List Addr)
    (a : Addr) (e : E) (w : W) (h : forwardsSucceed x pre w = true)
    (ha : (x a (forwardWorld x pre w)).1 = some e) :
    forwardsSucceed x (pre ++ a :: post) w = false := by
  induction pre generalizing w with
  | nil =>
    have ha1 : (x a w).1 = some e := ha
    simp [forwardsSucceed, ha1]
  | cons b l ih =>
    simp only [forwardsSucceed, Bool.and_eq_true] at h
    have := ih (x b w).2 h.2 ha
    simp [forwardsSucceed, this]

end chain

/-! ## Chains -/

/-- C1: a chain of pairwise distinct actions `pre ++ a :: post` in which the
forward callbacks of `pre` succeed and the forward callback of `a` (position
`k = pre.length + 1`) fails makes exactly the invocations forward of `pre` in
order, forward of `a`, backward of `pre` in reverse order.  No forward
callback of `post` runs, the backward callback of `a` does not run, and when
`pre` is empty no backward callback runs at all.  The caller world is the one
these callbacks produce in that order. -/
theorem chain_failure_invocations (pre post : List Addr) (a : Addr) (e : E) (s : State W E)
    (hnd : (pre ++ a :: post).Nodup)
    (hpre : forwardsSucceed s.execOf pre s.world = true)
    (hfail : (s.execOf a (forwardWorld s.execOf pre s.world)).1 = some e) :
    ∃ t : List Call,
      (ExecuteChain (pre ++ a :: post) s).2.calls = s.calls ++ t ∧
      t = pre.map Call.exec ++ [Call.exec a] ++ pre.reverse.map Call.undo ∧
      (∀ b ∈ post, Call.exec b ∉ t) ∧
      Call.undo a ∉ t ∧
      (pre = [] → ∀ q, Call.undo q ∉ t) ∧
      (ExecuteChain (pre ++ a :: post) s).2.world
        = backwardWorld s.undoOf pre.reverse (forwardWorld s.execOf (pre ++ [a]) s.world) := by
  have hnd1 : pre.Nodup := (List.nodup_append.mp hnd).1
  have hdis := (List.nodup_append.mp hnd).2.2
  have hapost := (List.nodup_cons.mp (List.nodup_append.mp hnd).2.1).1
  have ha_pre : a ∉ pre := fun h => hdis h (List.mem_cons_self a post)
  have hpost_pre : ∀ b ∈ post, b ∉ pre := fun b hb h => hdis h (List.mem_cons_of_mem a hb)
  have hflags : ∀ q ∈ pre.reverse, (Undo.Execute a (executeAll pre s)).2.flags q = false := by
    intro q hq
    have hq1 : q ∈ pre := List.mem_reverse.mp hq
    have hqa : q ≠ a := fun h => ha_pre (h ▸ hq1)
    simp [Function.update, hqa, executeAll_flags, hq1]
  have hpend := pendingUndos_of_nodup _ pre.reverse (List.nodup_reverse.mpr hnd1) hflags
  refine ⟨pre.map Call.exec ++ [Call.exec a] ++ pre.reverse.map Call.undo, ?_, rfl, ?_, ?_, ?_, ?_⟩
  · rw [ExecuteChain_of_failure pre post a e s hpre hfail]
    simp only [runDeferred_calls, hpend, Execute_calls, executeAll_calls, List.append_assoc]
  · intro b hb hmem
    have hmem2 : b ∈ pre ∨ b = a := by simpa using hmem
    rcases hmem2 with h | h
    · exact hpost_pre b hb h
    · exact hapost (h ▸ hb)
  · intro hmem
    have hmem2 : a ∈ pre := by simpa using hmem
    exact ha_pre hmem2
  · intro hp q
    subst hp
    simp
  · rw [ExecuteChain_of_failure pre post a e s hpre hfail]
    have hfw : forwardWorld s.execOf (pre ++ [a]) s.world
        = (s.execOf a (forwardWorld s.execOf pre s.world)).2 := by
      clear hpend hflags hpost_pre ha_pre hapost hdis hnd1 hfail hpre hnd
      generalize s.world = w
      induction pre generalizing w with
      | nil => rfl
      | cons b l ih => simp [forwardWorld, ih]
    simp only [runDeferred_world, hpend, Execute_undoOf, executeAll_undoOf, Execute_world,
      executeAll_execOf, executeAll_world, hfw]

/-- C1 on the chain of `TestExecuteChainError`: action 3 of 4 fails. -/
theorem chain_failure_invocations_witness :
    ∃ t : List Call,
      (ExecuteChain ([0, 1] ++ 2 :: [3]) testStateError).2.calls = testStateError.calls ++ t ∧
      t = [Call.exec 0, Call.exec 1, Call.exec 2, Call.undo 1, Call.undo 0] ∧
      (∀ b ∈ [3], Call.exec b ∉ t) ∧
      Call.undo 2 ∉ t ∧
      (([0, 1] : List Addr) = [] → ∀ q, Call.undo q ∉ t) ∧
      (ExecuteChain ([0, 1] ++ 2 :: [3]) testStateError).2.world
        = ["execute action1", "execute action2", "oops, action3 failed",
           "rollback action2", "rollback action1"] :=
  chain_failure_invocations [0, 1] [3] 2 "oops, an error occurred" testStateError
    (by decide) (by decide) (by decide)

/-- On records whose callbacks see the caller world only: when every forward
callback of the chain succeeds, `ExecuteChain`
returns `nil`, the invocations are exactly the forward callbacks in chain
order, no backward callback is invoked, every action of the chain ends with
`committed = true`, and the caller world is the one the forward callbacks
produce.  On the empty chain the state is returned unchanged. -/
theorem chain_success (chain : List Addr) (s : State W E)
    (h : forwardsSucceed s.execOf chain s.world = true) :
    (ExecuteChain chain s).1 = none ∧
    (∃ t : List Call,
      (ExecuteChain chain s).2.calls = s.calls ++ t ∧
      t = chain.map Call.exec ∧ ∀ q, Call.undo q ∉ t) ∧
    (∀ q ∈ chain, ((ExecuteChain chain s).2.heap q).committed = true) ∧
    (ExecuteChain chain s).2.world = forwardWorld s.execOf chain s.world ∧
    (chain = [] → ExecuteChain chain s = (none, s)) := by
  rw [ExecuteChain_of_succeed chain s h]
  refine ⟨rfl, ⟨chain.map Call.exec, ?_, rfl, ?_⟩, ?_, ?_, ?_⟩
  · simp [executeAll_calls]
  · intro q hq
    simp at hq
  · intro q hq
    rw [heap_committed_eq, CommitAll_flags]
    simp [hq]
  · simp [executeAll_world]
  · intro hc
    subst hc
    rfl

/-- C3: `ExecuteChain` returns `nil` exactly when every forward callback of
the chain, run in order, succeeds; otherwise it returns the very error value
produced by the forward callback at the first failing position, whatever the
unwind does. -/
theorem chain_result (chain : List Addr) (s : State W E) :
    ((ExecuteChain chain s).1 = none ↔ forwardsSucceed s.execOf chain s.world = true) ∧
    (∀ (pre post : List Addr) (a : Addr) (e : E),
      chain = pre ++ a :: post →
      forwardsSucceed s.execOf pre s.world = true →
      (s.execOf a (forwardWorld s.execOf pre s.world)).1 = some e →
      (ExecuteChain chain s).1 = some e) := by
  have hfail : ∀ (pre post : List Addr) (a : Addr) (e : E),
      chain = pre ++ a :: post →
      forwardsSucceed s.execOf pre s.world = true →
      (s.execOf a (forwardWorld s.execOf pre s.world)).1 = some e →
      (ExecuteChain chain s).1 = some e := by
    intro pre post a e hc hp ha
    rw [hc, ExecuteChain_of_failure pre post a e s hp ha]
  refine ⟨⟨?_, ?_⟩, hfail⟩
  · intro hr
    cases hs : forwardsSucceed s.execOf chain s.world with
    | true => rfl
    | false =>
      obtain ⟨pre, a, post, e, hc, hp, ha⟩ := exists_first_failure _ _ _ hs
      rw [hfail pre post a e hc hp ha] at hr
      exact absurd hr (by simp)
  · intro hs
    rw [ExecuteChain_of_succeed chain s hs]

/-- C3 on the chain of `TestExecuteChainError`: the error of action 3 is
returned as it is. -/
theorem chain_result_witness :
    (ExecuteChain [0, 1, 2, 3] testStateError).1 = some "oops, an error occurred" :=
  (chain_result [0, 1, 2, 3] testStateError).2 [0, 1] [3] 2 "oops, an error occurred"
    rfl (by decide) (by decide)

/-! ## Single actions -/

/-- C5: after `Commit`, any number of `Undo` calls leaves the state as
`Commit` left it: nothing is invoked and `committed` stays `true`.  More
generally `Undo` on an action whose flag is `true` changes nothing. -/
theorem Commit_defuses_Undo (p : Addr) (s : State W E) (n : Nat) :
    (Undo.Undo p)^[n] (Undo.Commit p s) = Undo.Commit p s ∧
    ((Undo.Undo p)^[n] (Undo.Commit p s)).calls = s.calls ∧
    ((Undo.Undo p)^[n] (Undo.Commit p s)).world = s.world ∧
    (((Undo.Undo p)^[n] (Undo.Commit p s)).heap p).committed = true ∧
    ((s.heap p).committed = true → Undo.Undo p s = s) := by
  have hc : (Undo.Commit p s).flags p = true := by simp
  have hfix : (Undo.Undo p)^[n] (Undo.Commit p s) = Undo.Commit p s :=
    Function.iterate_fixed (Undo_of_committed p _ hc) n
  refine ⟨hfix, ?_, ?_, ?_, fun h => Undo_of_committed p s h⟩
  · rw [hfix]; rfl
  · rw [hfix]; rfl
  · rw [hfix]; exact hc

/-- C5 on the counter of `TestUndo`: execute, commit, undo twice; `num`
stays 6. -/
theorem Commit_defuses_Undo_witness :
    ((Undo.Undo 0)^[2]
      (Undo.Commit 0 (Undo.Execute 0 (New testInc testDec testStateUndo).2).2)).world = 6 ∧
    Undo.Undo 0 (Undo.Commit 0 (New testInc testDec testStateUndo).2)
      = Undo.Commit 0 (New testInc testDec testStateUndo).2 :=
  ⟨by rw [(Commit_defuses_Undo 0 (Undo.Execute 0 (New testInc testDec testStateUndo).2).2 2).1]
      decide,
   (Commit_defuses_Undo 0 (Undo.Commit 0 (New testInc testDec testStateUndo).2) 0).2.2.2.2
      (by decide)⟩

/-! ## Construction -/

section construction

variable (ex : W → Option E × W) (un : W → W) (s : State W E)

theorem New_flags_self : (New ex un s).2.flags (New ex un s).1 = false := by
  simp [New, State.flags]

theorem New_undoOf_self : (New ex un s).2.undoOf (New ex un s).1 = un := by
  simp [New, State.undoOf]

theorem New_execOf_self : (New ex un s).2.execOf (New ex un s).1 = ex := by
  simp [New, State.execOf]

end construction

/-- C8, as the code has it: `Undo` called on a freshly constructed action,
before any `Execute`, does invoke the backward callback, once: `New` leaves
the action armed (`committed = false`), and that first `Undo` commits it. -/
theorem fresh_Undo_invokes_backward (ex : W → Option E × W) (un : W → W) (s : State W E) :
    ((New ex un s).2.heap (New ex un s).1).committed = false ∧
    (Undo.Undo (New ex un s).1 (New ex un s).2).calls
      = s.calls ++ [Call.undo (New ex un s).1] ∧
    (Undo.Undo (New ex un s).1 (New ex un s).2).world = un s.world ∧
    ((Undo.Undo (New ex un s).1 (New ex un s).2).heap (New ex un s).1).committed = true := by
  have harm := New_flags_self ex un s
  refine ⟨harm, ?_, ?_, ?_⟩
  · rw [Undo_calls_of_armed _ _ harm]
    rfl
  · rw [Undo_world_of_armed _ _ harm, New_undoOf_self]
    rfl
  · exact Undo_flags_self _ _

/-- C8 fails on the counter of `TestUndo`: `New` followed at once by `Undo`
runs `num--` (5 becomes 4) although `num++` never ran, so it is not true that
no backward callback is invoked, nor that the fresh action is committed. -/
theorem fresh_Undo_is_not_noop :
    (Undo.Undo (New testInc testDec testStateUndo).1 (New testInc testDec testStateUndo).2).calls
      = [Call.undo 0] ∧
    (Undo.Undo (New testInc testDec testStateUndo).1 (New testInc testDec testStateUndo).2).world
      = 4 ∧
    ¬ ((Undo.Undo (New testInc testDec testStateUndo).1
          (New testInc testDec testStateUndo).2).calls = testStateUndo.calls) ∧
    ¬ (((New testInc testDec testStateUndo).2.heap
          (New testInc testDec testStateUndo).1).committed = true) := by
  decide

/-- C9: `New` invokes no callback and touches neither the caller world nor
any other action; the record it returns holds the two callbacks and
`committed = false`.  On such a never executed action the first `Undo`
invokes the backward callback, and however many `Undo` calls follow, that is
the only invocation. -/
theorem New_contract (ex : W → Option E × W) (un : W → W) (s : State W E) (n : Nat) :
    (New ex un s).2.calls = s.calls ∧
    (New ex un s).2.world = s.world ∧
    ((New ex un s).2.heap (New ex un s).1).exec = ex ∧
    ((New ex un s).2.heap (New ex un s).1).undo = un ∧
    ((New ex un s).2.heap (New ex un s).1).committed = false ∧
    (∀ q, q ≠ (New ex un s).1 → (New ex un s).2.heap q = s.heap q) ∧
    ((Undo.Undo (New ex un s).1)^[n + 1] (New ex un s).2).calls
      = s.calls ++ [Call.undo (New ex un s).1] := by
  have harm := New_flags_self ex un s
  refine ⟨rfl, rfl, New_execOf_self ex un s, New_undoOf_self ex un s, harm, ?_, ?_⟩
  · intro q hq
    have hq1 : q ≠ s.next := hq
    simp [New, Function.update, hq1]
  · rw [Undo_iterate_succ, Undo_calls_of_armed _ _ harm]
    rfl

/-! ## Running a chain again -/

section rerun

theorem forwardsSucceed_of_fixed (x : Addr → W → Option E × W) (l : List Addr)
    (hfix : ∀ a ∈ l, ∀ w w1, (x a w).1 = (x a w1).1) (w w1 : W) :
    forwardsSucceed x l w = forwardsSucceed x l w1 := by
  induction l generalizing w w1 with
  | nil => rfl
  | cons a l ih =>
    simp only [forwardsSucceed]
    rw [hfix a (List.mem_cons_self a l) w w1,
      ih (fun b hb => hfix b (List.mem_cons_of_mem a hb)) (x a w).2 (x a w1).2]

theorem ExecuteChain_calls_of_failure (pre post : List Addr) (a : Addr) (e : E) (s : State W E)
    (h : forwardsSucceed s.execOf pre s.world = true)
    (ha : (s.execOf a (forwardWorld s.execOf pre s.world)).1 = some e) :
    (ExecuteChain (pre ++ a :: post) s).2.calls
      = s.calls ++ (pre.map Call.exec ++ [Call.exec a]
          ++ (pendingUndos (fun _ => false) pre.reverse).map Call.undo) := by
  have hflags : ∀ q ∈ pre.reverse,
      (Undo.Execute a (executeAll pre s)).2.flags q = (fun _ => false) q := by
    intro q hq
    have hq1 : q ∈ pre := List.mem_reverse.mp hq
    by_cases hqa : q = a
    · simp [hqa]
    · simp [Function.update, hqa, executeAll_flags, hq1]
  rw [ExecuteChain_of_failure pre post a e s h ha, runDeferred_calls,
    pendingUndos_congr _ _ _ hflags]
  simp only [Execute_calls, executeAll_calls, List.append_assoc]

/-- With forward outcomes that do not depend on the caller world, the result
and the invocations of `ExecuteChain` are the same from any two states holding
the same callbacks, whatever their committed flags. -/
theorem ExecuteChain_independent_of_flags (chain : List Addr) (s s1 : State W E)
    (hx : s1.execOf = s.execOf)
    (hfix : ∀ a ∈ chain, ∀ w w1, (s.execOf a w).1 = (s.execOf a w1).1) :
    (ExecuteChain chain s1).1 = (ExecuteChain chain s).1 ∧
    ∃ t : List Call, (ExecuteChain chain s).2.calls = s.calls ++ t ∧
      (ExecuteChain chain s1).2.calls = s1.calls ++ t := by
  cases hs : forwardsSucceed s.execOf chain s.world with
  | true =>
    have hs1 : forwardsSucceed s1.execOf chain s1.world = true := by
      rw [hx, forwardsSucceed_of_fixed _ chain hfix s1.world s.world]; exact hs
    rw [ExecuteChain_of_succeed chain s hs, ExecuteChain_of_succeed chain s1 hs1]
    exact ⟨rfl, chain.map Call.exec, by simp [executeAll_calls], by simp [executeAll_calls]⟩
  | false =>
    obtain ⟨pre, a, post, e, hc, hp, ha⟩ := exists_first_failure _ _ _ hs
    subst hc
    have hfixpre : ∀ b ∈ pre, ∀ w w1, (s.execOf b w).1 = (s.execOf b w1).1 :=
      fun b hb => hfix b (List.mem_append_left _ hb)
    have hfixa : ∀ w w1, (s.execOf a w).1 = (s.execOf a w1).1 :=
      hfix a (List.mem_append_right _ (List.mem_cons_self a post))
    have hp1 : forwardsSucceed s1.execOf pre s1.world = true := by
      rw [hx, forwardsSucceed_of_fixed _ pre hfixpre s1.world s.world]; exact hp
    have ha1 : (s1.execOf a (forwardWorld s1.execOf pre s1.world)).1 = some e := by
      rw [hx, hfixa _ (forwardWorld s.execOf pre s.world)]; exact ha
    refine ⟨?_, _, ExecuteChain_calls_of_failure pre post a e s hp ha,
      ExecuteChain_calls_of_failure pre post a e s1 hp1 ha1⟩
    rw [ExecuteChain_of_failure pre post a e s hp ha,
      ExecuteChain_of_failure pre post a e s1 hp1 ha1]

theorem ExecuteChain_execOf (chain : List Addr) (s : State W E) :
    (ExecuteChain chain s).2.execOf = s.execOf := by
  cases hs : forwardsSucceed s.execOf chain s.world with
  | true => rw [ExecuteChain_of_succeed chain s hs]; simp
  | false =>
    obtain ⟨pre, a, post, e, hc, hp, ha⟩ := exists_first_failure _ _ _ hs
    subst hc
    rw [ExecuteChain_of_failure pre post a e s hp ha]
    simp

end rerun

/-- On records whose callbacks see the caller world only: when the outcome of
every forward callback is fixed (it does not
depend on the caller world), running `ExecuteChain` a second time on the same
action instances, in the state the first run left, returns the same result
and makes the same sequence of forward and backward invocations as the first
run, whether the first run succeeded or failed and whatever the committed
flags were before either run. -/
theorem rerun_identical (chain : List Addr) (s : State W E)
    (hfix : ∀ a ∈ chain, ∀ w w1, ((s.heap a).exec w).1 = ((s.heap a).exec w1).1) :
    (ExecuteChain chain (ExecuteChain chain s).2).1 = (ExecuteChain chain s).1 ∧
    ∃ t : List Call,
      (ExecuteChain chain s).2.calls = s.calls ++ t ∧
      (ExecuteChain chain (ExecuteChain chain s).2).2.calls
        = (ExecuteChain chain s).2.calls ++ t :=
  ExecuteChain_independent_of_flags chain s (ExecuteChain chain s).2
    (ExecuteChain_execOf chain s) hfix

/-! ## Sequences of calls on one action -/

section activation

theorem runOps_append (p : Addr) (l1 l2 : List Op) (s : State W E) :
    runOps p (l1 ++ l2) s = runOps p l2 (runOps p l1 s) := by
  induction l1 generalizing s with
  | nil => rfl
  | cons o l ih => simp [runOps, ih]

theorem runOps_of_committed (p : Addr) (act : List Op) (s : State W E)
    (hact : ∀ o ∈ act, o ≠ Op.Execute) (hc : s.flags p = true) :
    (runOps p act s).calls = s.calls := by
  induction act generalizing s with
  | nil => rfl
  | cons o l ih =>
    have hl : ∀ o ∈ l, o ≠ Op.Execute := fun o1 h1 => hact o1 (List.mem_cons_of_mem o h1)
    cases o with
    | Execute => exact absurd rfl (hact Op.Execute (List.mem_cons_self _ l))
    | Undo =>
      simp only [runOps, Op.run, Undo_of_committed p s hc]
      exact ih s hl hc
    | Commit =>
      simp only [runOps, Op.run]
      rw [ih _ hl (by simp)]
      rfl

theorem runOps_of_armed (p : Addr) (act : List Op) (s : State W E)
    (hact : ∀ o ∈ act, o ≠ Op.Execute) (ha : s.flags p = false) :
    (runOps p act s).calls
      = s.calls ++ (if act.find? (fun o => o ≠ Op.Execute) = some Op.Undo
          then [Call.undo p] else []) := by
  cases act with
  | nil => simp [runOps]
  | cons o l =>
    have hl : ∀ o ∈ l, o ≠ Op.Execute := fun o1 h1 => hact o1 (List.mem_cons_of_mem o h1)
    cases o with
    | Execute => exact absurd rfl (hact Op.Execute (List.mem_cons_self _ l))
    | Undo =>
      simp only [runOps, Op.run]
      rw [runOps_of_committed p l _ hl (Undo_flags_self p s), Undo_calls_of_armed p s ha]
      simp
    | Commit =>
      simp only [runOps, Op.run]
      rw [runOps_of_committed p l _ hl (by simp)]
      simp

end activation

/-- C11: in any sequence of `Execute`, `Undo` and `Commit` calls on one
action, take an activation: an `Execute` and the calls `act` after it up to
the next `Execute` (so `act` holds no `Execute`), after any earlier calls
`pre`.  The invocations the activation makes are the forward callback and
then the backward callback once if the first call of `act` is `Undo`, and no
backward callback otherwise (first call `Commit`, or `act` empty); so at most
one backward invocation per activation. -/
theorem backward_once_per_activation (p : Addr) (s : State W E) (pre act : List Op)
    (hact : ∀ o ∈ act, o ≠ Op.Execute) :
    ∃ t : List Call,
      (runOps p (pre ++ Op.Execute :: act) s).calls
        = (runOps p pre s).calls ++ Call.exec p :: t ∧
      t = (if act.head? = some Op.Undo then [Call.undo p] else []) ∧
      t.count (Call.undo p) ≤ 1 := by
  have harm : (Undo.Execute p (runOps p pre s)).2.flags p = false := by simp
  have hfind : act.find? (fun o => o ≠ Op.Execute) = act.head? := by
    cases act with
    | nil => rfl
    | cons o l =>
      have ho : o ≠ Op.Execute := hact o (List.mem_cons_self o l)
      simp [List.find?, ho]
  refine ⟨_, ?_, rfl, ?_⟩
  · rw [runOps_append]
    simp only [runOps, Op.run]
    rw [runOps_of_armed p act _ hact harm, hfind]
    simp
  · split <;> simp

/-- C11 on the counter of `TestUndo`: after an earlier `Undo`, the
activation `Execute, Undo, Undo, Commit, Undo` invokes the backward callback
once. -/
theorem backward_once_per_activation_witness :
    ∃ t : List Call,
      (runOps 0 ([Op.Undo] ++ Op.Execute :: [Op.Undo, Op.Undo, Op.Commit, Op.Undo])
          (New testInc testDec testStateUndo).2).calls
        = (runOps 0 [Op.Undo] (New testInc testDec testStateUndo).2).calls ++ Call.exec 0 :: t ∧
      t = [Call.undo 0] ∧
      t.count (Call.undo 0) ≤ 1 :=
  backward_once_per_activation 0 (New testInc testDec testStateUndo).2 [Op.Undo]
    [Op.Undo, Op.Undo, Op.Commit, Op.Undo] (by decide)

/-! ## Committing -/

section commit

theorem State.eq_of_parts (s t : State W E) (hx : s.execOf = t.execOf)
    (hu : s.undoOf = t.undoOf) (hf : s.flags = t.flags) (hn : s.next = t.next)
    (hw : s.world = t.world) (hc : s.calls = t.calls) : s = t := by
  obtain ⟨sh, sn, sw, sc⟩ := s
  obtain ⟨th, tn, tw, tc⟩ := t
  simp only at hn hw hc
  subst hn hw hc
  have hh : sh = th := by
    funext q
    have h1 : (sh q).exec = (th q).exec := congrFun hx q
    have h2 : (sh q).undo = (th q).undo := congrFun hu q
    have h3 : (sh q).committed = (th q).committed := congrFun hf q
    cases hs : sh q
    cases ht : th q
    rw [hs, ht] at h1 h2 h3
    simp only at h1 h2 h3
    rw [h1, h2, h3]
  rw [hh]

theorem setCommitted_heap_of_ne (s : State W E) (p q : Addr) (b : Bool) (h : q ≠ p) :
    (s.setCommitted p b).heap q = s.heap q := by
  simp [State.setCommitted, Function.update, h]

theorem CommitAll_heap_of_not_mem (l : List Addr) (s : State W E) (q : Addr) (h : q ∉ l) :
    (CommitAll l s).heap q = s.heap q := by
  induction l generalizing s with
  | nil => rfl
  | cons a l ih =>
    have hqa : q ≠ a := fun e => h (e ▸ List.mem_cons_self a l)
    have hql : q ∉ l := fun hm => h (List.mem_cons_of_mem a hm)
    rw [CommitAll, ih _ hql]
    exact setCommitted_heap_of_ne s a q true hqa

theorem CommitAll_perm (l l1 : List Addr) (s : State W E) (h : l.Perm l1) :
    CommitAll l1 s = CommitAll l s := by
  apply State.eq_of_parts
  · simp
  · simp
  · funext q
    rw [CommitAll_flags, CommitAll_flags]
    have hm : q ∈ l1 ↔ q ∈ l := h.symm.mem_iff
    simp [hm]
  · simp
  · simp
  · simp

end commit

/-- C12: for every list of actions, duplicates allowed, `CommitAll` leaves
every listed action with `committed = true` and its callbacks as they were,
leaves every action that is not listed untouched, invokes no callback (the
invocation log and the caller world are unchanged), and reaches the same
final state for every permutation of the list. -/
theorem CommitAll_frame (l l1 : List Addr) (s : State W E) (hperm : l.Perm l1) :
    (∀ q ∈ l, ((CommitAll l s).heap q).committed = true) ∧
    (∀ q ∈ l, ((CommitAll l s).heap q).exec = (s.heap q).exec ∧
      ((CommitAll l s).heap q).undo = (s.heap q).undo) ∧
    (∀ q, q ∉ l → (CommitAll l s).heap q = s.heap q) ∧
    (CommitAll l s).calls = s.calls ∧
    (CommitAll l s).world = s.world ∧
    CommitAll l1 s = CommitAll l s := by
  refine ⟨?_, ?_, fun q hq => CommitAll_heap_of_not_mem l s q hq, CommitAll_calls l s,
    CommitAll_world l s, CommitAll_perm l l1 s hperm⟩
  · intro q hq
    rw [heap_committed_eq, CommitAll_flags]
    simp [hq]
  · intro q _
    exact ⟨congrFun (CommitAll_execOf l s) q, congrFun (CommitAll_undoOf l s) q⟩

/-- C12 on the actions of `TestExecuteChainError`: committing 0, 2, 0, 3 or
3, 0, 0, 2 gives the same state, with action 1 left armed. -/
theorem CommitAll_frame_witness :
    CommitAll [3, 0, 0, 2] testStateError = CommitAll [0, 2, 0, 3] testStateError ∧
    ((CommitAll [0, 2, 0, 3] testStateError).heap 1).committed = false ∧
    ((CommitAll [0, 2, 0, 3] testStateError).heap 0).committed = true :=
  ⟨(CommitAll_frame [0, 2, 0, 3] [3, 0, 0, 2] testStateError (by decide)).2.2.2.2.2,
    by decide, by decide⟩

/-- C13: whatever the flag was, `Commit` leaves `committed = true`, invokes
no callback, leaves the caller world, the callbacks of the action and every
other action as they were, and calling it twice is the same as calling it
once. -/
theorem Commit_contract (p : Addr) (s : State W E) :
    ((Undo.Commit p s).heap p).committed = true ∧
    (Undo.Commit p s).calls = s.calls ∧
    (Undo.Commit p s).world = s.world ∧
    (Undo.Commit p s).next = s.next ∧
    ((Undo.Commit p s).heap p).exec = (s.heap p).exec ∧
    ((Undo.Commit p s).heap p).undo = (s.heap p).undo ∧
    (∀ q, q ≠ p → (Undo.Commit p s).heap q = s.heap q) ∧
    Undo.Commit p (Undo.Commit p s) = Undo.Commit p s := by
  have hflag : (Undo.Commit p s).flags p = true := by simp
  refine ⟨hflag, rfl, rfl, rfl, congrFun (Commit_execOf p s) p, congrFun (Commit_undoOf p s) p,
    fun q hq => setCommitted_heap_of_ne s p q true hq, ?_⟩
  apply State.eq_of_parts
  · simp
  · simp
  · simp
  · rfl
  · rfl
  · rfl

/-! ## Deferred calls against an explicit unwind stack -/

section refinement

theorem unwind_eq_runDeferred (stack : List Addr) (s : State W E) :
    UnwindStack.unwind stack s = ExecuteChain.runDeferred stack s := by
  induction stack generalizing s with
  | nil => rfl
  | cons a l ih => simp [UnwindStack.unwind, ExecuteChain.runDeferred, ih]

theorem run_cons_of_success (a : Addr) (rest stack : List Addr) (s : State W E)
    (h : (s.execOf a s.world).1 = none) :
    UnwindStack.run (a :: rest) stack s
      = UnwindStack.run rest (a :: stack) (Undo.Execute a s).2 := by
  have h1 : (Undo.Execute a s).1 = none := by rw [Execute_fst]; exact h
  rw [UnwindStack.run]
  rcases hx : Undo.Execute a s with ⟨r, s1⟩
  rw [hx] at h1
  simp only at h1
  subst h1
  rfl

theorem run_cons_of_failure (a : Addr) (rest stack : List Addr) (s : State W E) (e : E)
    (h : (s.execOf a s.world).1 = some e) :
    UnwindStack.run (a :: rest) stack s
      = (some e, UnwindStack.unwind stack (Undo.Execute a s).2) := by
  have h1 : (Undo.Execute a s).1 = some e := by rw [Execute_fst]; exact h
  rw [UnwindStack.run]
  rcases hx : Undo.Execute a s with ⟨r, s1⟩
  rw [hx] at h1
  simp only at h1
  subst h1
  rfl

theorem run_append_of_succeed (pre rest stack : List Addr) (s : State W E)
    (h : forwardsSucceed s.execOf pre s.world = true) :
    UnwindStack.run (pre ++ rest) stack s
      = UnwindStack.run rest (pre.reverse ++ stack) (executeAll pre s) := by
  induction pre generalizing stack s with
  | nil => rfl
  | cons a l ih =>
    simp only [forwardsSucceed, Bool.and_eq_true, Option.isNone_iff_eq_none] at h
    have h2 : forwardsSucceed (Undo.Execute a s).2.execOf l (Undo.Execute a s).2.world = true := by
      rw [Execute_execOf, Execute_world]; exact h.2
    rw [List.cons_append, run_cons_of_success a (l ++ rest) stack s h.1, ih (a :: stack) _ h2]
    simp [executeAll]

theorem ExecuteChainUnwindStack_eq (chain : List Addr) (s : State W E) :
    ExecuteChainUnwindStack chain s = ExecuteChain chain s := by
  cases hs : forwardsSucceed s.execOf chain s.world with
  | true =>
    have hr := run_append_of_succeed chain [] [] s hs
    simp only [List.append_nil] at hr
    rw [ExecuteChain_of_succeed chain s hs]
    simp only [ExecuteChainUnwindStack, hr, UnwindStack.run]
  | false =>
    obtain ⟨pre, a, post, e, hc, hp, ha⟩ := exists_first_failure _ _ _ hs
    subst hc
    have ha2 : ((executeAll pre s).execOf a (executeAll pre s).world).1 = some e := by
      rw [executeAll_execOf, executeAll_world]; exact ha
    have hr := run_append_of_succeed pre (a :: post) [] s hp
    rw [run_cons_of_failure a post _ _ e ha2] at hr
    simp only [List.append_nil] at hr
    rw [ExecuteChain_of_failure pre post a e s hp ha]
    simp only [ExecuteChainUnwindStack, hr, unwind_eq_runDeferred]

end refinement

/-- C14: for every chain and every initial state, `ExecuteChain`, which
defers an `Undo` for each executed action and always runs the deferred calls
on return, and the explicit unwind-stack runner, which undoes only on failure
and commits directly on success, end in the same result and the same state:
same returned error, same invocations in the same order, same committed
flags, same caller world. -/
theorem ExecuteChain_refines_unwind_stack (chain : List Addr) (s : State W E) :
    ExecuteChain chain s = ExecuteChainUnwindStack chain s ∧
    (ExecuteChain chain s).1 = (ExecuteChainUnwindStack chain s).1 ∧
    (ExecuteChain chain s).2.calls = (ExecuteChainUnwindStack chain s).2.calls ∧
    (∀ q, ((ExecuteChain chain s).2.heap q).committed
      = ((ExecuteChainUnwindStack chain s).2.heap q).committed) ∧
    (ExecuteChain chain s).2.world = (ExecuteChainUnwindStack chain s).2.world := by
  have h := ExecuteChainUnwindStack_eq chain s
  refine ⟨h.symm, ?_, ?_, ?_, ?_⟩
  · rw [h]
  · rw [h]
  · intro q; rw [h]
  · rw [h]

/-! ## Chains that fail: flags, and repeated instances -/

section unwind

theorem pendingUndos_append_singleton (f : Addr → Bool) (d : List Addr) (a : Addr) :
    pendingUndos f (d ++ [a])
      = pendingUndos f d ++ (if f a = false ∧ a ∉ d then [a] else []) := by
  induction d generalizing f with
  | nil => simp [pendingUndos]
  | cons b d ih =>
    by_cases hb : f b = false
    · have hstep : pendingUndos f (b :: (d ++ [a]))
          = b :: pendingUndos (Function.update f b true) (d ++ [a]) := by
        simp [pendingUndos, hb]
      have hstep2 : pendingUndos f (b :: d) = b :: pendingUndos (Function.update f b true) d := by
        simp [pendingUndos, hb]
      rw [List.cons_append, hstep, hstep2, ih]
      by_cases hab : a = b
      · subst hab
        simp
      · have hba : b ≠ a := fun h => hab h.symm
        simp [Function.update, hab, hba]
    · have hb1 : f b = true := by simpa using hb
      have hstep : pendingUndos f (b :: (d ++ [a])) = pendingUndos f (d ++ [a]) := by
        simp [pendingUndos, hb1]
      have hstep2 : pendingUndos f (b :: d) = pendingUndos f d := by
        simp [pendingUndos, hb1]
      rw [List.cons_append, hstep, hstep2, ih]
      by_cases hab : a = b
      · subst hab
        simp [hb1]
      · simp [hab]

theorem pendingUndos_reverse (l : List Addr) :
    pendingUndos (fun _ => false) l.reverse = l.dedup.reverse := by
  induction l with
  | nil => rfl
  | cons a l ih =>
    rw [List.reverse_cons, pendingUndos_append_singleton, ih]
    by_cases ha : a ∈ l
    · simp [List.dedup_cons_of_mem ha, ha]
    · simp [List.dedup_cons_of_not_mem ha, ha]

theorem dedup_reverse_order (l : List Addr) :
    ∀ q ∈ l, ∀ r ∈ l,
      (l.dedup.reverse.indexOf q < l.dedup.reverse.indexOf r
        ↔ l.reverse.indexOf q < l.reverse.indexOf r) := by
  induction l with
  | nil => intro q hq; simp at hq
  | cons a l ih =>
    intro q hq r hr
    by_cases ha : a ∈ l
    · have hq1 : q ∈ l := by
        rcases List.mem_cons.mp hq with h | h
        · exact h ▸ ha
        · exact h
      have hr1 : r ∈ l := by
        rcases List.mem_cons.mp hr with h | h
        · exact h ▸ ha
        · exact h
      rw [List.dedup_cons_of_mem ha, List.reverse_cons,
        List.indexOf_append_of_mem (List.mem_reverse.mpr hq1),
        List.indexOf_append_of_mem (List.mem_reverse.mpr hr1)]
      exact ih q hq1 r hr1
    · rw [List.dedup_cons_of_not_mem ha, List.reverse_cons, List.reverse_cons]
      have inD : ∀ x, x ∈ l → x ∈ l.dedup.reverse :=
        fun x hx => List.mem_reverse.mpr (List.mem_dedup.mpr hx)
      have inR : ∀ x, x ∈ l → x ∈ l.reverse := fun x hx => List.mem_reverse.mpr hx
      have notD : a ∉ l.dedup.reverse := fun h => ha (List.mem_dedup.mp (List.mem_reverse.mp h))
      have notR : a ∉ l.reverse := fun h => ha (List.mem_reverse.mp h)
      rcases List.mem_cons.mp hq with hqa | hql <;> rcases List.mem_cons.mp hr with hra | hrl
      · subst hqa; subst hra
        simp
      · subst hqa
        rw [List.indexOf_append_of_not_mem notD, List.indexOf_append_of_not_mem notR,
          List.indexOf_append_of_mem (inD r hrl), List.indexOf_append_of_mem (inR r hrl)]
        have h1 := List.indexOf_lt_length.mpr (inD r hrl)
        have h2 := List.indexOf_lt_length.mpr (inR r hrl)
        constructor <;> intro h <;> omega
      · subst hra
        rw [List.indexOf_append_of_not_mem notD, List.indexOf_append_of_not_mem notR,
          List.indexOf_append_of_mem (inD q hql), List.indexOf_append_of_mem (inR q hql)]
        have h1 := List.indexOf_lt_length.mpr (inD q hql)
        have h2 := List.indexOf_lt_length.mpr (inR q hql)
        constructor <;> intro _ <;> omega
      · rw [List.indexOf_append_of_mem (inD q hql), List.indexOf_append_of_mem (inR q hql),
          List.indexOf_append_of_mem (inD r hrl), List.indexOf_append_of_mem (inR r hrl)]
        exact ih q hql r hrl

theorem count_undo_of_nodup (l : List Addr) (hl : l.Nodup) (q : Addr) (hq : q ∈ l) :
    (l.map Call.undo).count (Call.undo q) = 1 := by
  have hinj : Function.Injective Call.undo := fun x y h => by injection h
  exact List.count_eq_one_of_mem (hl.map hinj) (List.mem_map_of_mem Call.undo hq)

theorem ExecuteChain_calls_of_failure_dedup (pre post : List Addr) (a : Addr) (e : E)
    (s : State W E) (h : forwardsSucceed s.execOf pre s.world = true)
    (ha : (s.execOf a (forwardWorld s.execOf pre s.world)).1 = some e) :
    (ExecuteChain (pre ++ a :: post) s).2.calls
      = s.calls ++ (pre.map Call.exec ++ [Call.exec a] ++ pre.dedup.reverse.map Call.undo) := by
  rw [ExecuteChain_calls_of_failure pre post a e s h ha, pendingUndos_reverse]

theorem ExecuteChain_flags_of_failure (pre post : List Addr) (a : Addr) (e : E)
    (s : State W E) (h : forwardsSucceed s.execOf pre s.world = true)
    (ha : (s.execOf a (forwardWorld s.execOf pre s.world)).1 = some e) (q : Addr) :
    (ExecuteChain (pre ++ a :: post) s).2.flags q
      = (decide (q ∈ pre) || (!decide (q = a) && s.flags q)) := by
  rw [ExecuteChain_of_failure pre post a e s h ha]
  simp only [runDeferred_flags, Execute_flags]
  by_cases hqa : q = a
  · subst hqa
    by_cases hqp : q ∈ pre <;> simp [hqp]
  · by_cases hqp : q ∈ pre <;> simp [Function.update, hqa, hqp, executeAll_flags]

end unwind

/-- On records whose callbacks see the caller world only: after
`ExecuteChain` has failed at the action `a` of a chain
`pre ++ a :: post` of pairwise distinct instances, every action of `pre` has
`committed = true` (a later `Undo` on it changes nothing), the failing action
`a` has `committed = false` (a later `Undo` on it would invoke its backward
callback), and the flag of every action of `post` is what it was before the
call. -/
theorem chain_failure_flags (pre post : List Addr) (a : Addr) (e : E) (s : State W E)
    (hnd : (pre ++ a :: post).Nodup)
    (hpre : forwardsSucceed s.execOf pre s.world = true)
    (hfail : (s.execOf a (forwardWorld s.execOf pre s.world)).1 = some e) :
    (∀ q ∈ pre, ((ExecuteChain (pre ++ a :: post) s).2.heap q).committed = true ∧
      Undo.Undo q (ExecuteChain (pre ++ a :: post) s).2 = (ExecuteChain (pre ++ a :: post) s).2) ∧
    ((ExecuteChain (pre ++ a :: post) s).2.heap a).committed = false ∧
    (Undo.Undo a (ExecuteChain (pre ++ a :: post) s).2).calls
      = (ExecuteChain (pre ++ a :: post) s).2.calls ++ [Call.undo a] ∧
    (∀ q ∈ post, ((ExecuteChain (pre ++ a :: post) s).2.heap q).committed
      = (s.heap q).committed) := by
  have hdis := (List.nodup_append.mp hnd).2.2
  have hapost := (List.nodup_cons.mp (List.nodup_append.mp hnd).2.1).1
  have ha_pre : a ∉ pre := fun h => hdis h (List.mem_cons_self a post)
  have hfl := ExecuteChain_flags_of_failure pre post a e s hpre hfail
  have hpre_true : ∀ q ∈ pre, (ExecuteChain (pre ++ a :: post) s).2.flags q = true := by
    intro q hq
    rw [hfl q]
    simp [hq]
  have ha_false : (ExecuteChain (pre ++ a :: post) s).2.flags a = false := by
    rw [hfl a]
    simp [ha_pre]
  refine ⟨fun q hq => ⟨hpre_true q hq, Undo_of_committed q _ (hpre_true q hq)⟩, ha_false,
    Undo_calls_of_armed a _ ha_false, ?_⟩
  intro q hq
  have hq_pre : q ∉ pre := fun h => hdis h (List.mem_cons_of_mem a hq)
  have hqa : q ≠ a := fun h => hapost (h ▸ hq)
  rw [heap_committed_eq, heap_committed_eq, hfl q]
  simp [hq_pre, hqa]

/-- On records whose callbacks see the caller world only: when a chain
`pre ++ a :: post`, in which instances may repeat,
fails at `a`, the unwind invokes the backward callback once for each distinct
instance of `pre`, not once per successful execution.  The instances undone
are `pre` with only the last occurrence of each kept, taken from the back:
an instance is undone before another exactly when its last occurrence in
`pre` is the later one (its first occurrence in `pre.reverse` is the
earlier one). -/
theorem unwind_once_per_instance (pre post : List Addr) (a : Addr) (e : E) (s : State W E)
    (hpre : forwardsSucceed s.execOf pre s.world = true)
    (hfail : (s.execOf a (forwardWorld s.execOf pre s.world)).1 = some e) :
    ∃ t : List Addr,
      (ExecuteChain (pre ++ a :: post) s).2.calls
        = s.calls ++ (pre.map Call.exec ++ [Call.exec a] ++ t.map Call.undo) ∧
      t = pre.dedup.reverse ∧
      t.Nodup ∧
      (∀ q, q ∈ t ↔ q ∈ pre) ∧
      (∀ q ∈ pre, (t.map Call.undo).count (Call.undo q) = 1) ∧
      (∀ q ∈ pre, ∀ r ∈ pre,
        (t.indexOf q < t.indexOf r ↔ pre.reverse.indexOf q < pre.reverse.indexOf r)) := by
  have hnd : pre.dedup.reverse.Nodup := List.nodup_reverse.mpr (List.nodup_dedup pre)
  have hmem : ∀ q, q ∈ pre.dedup.reverse ↔ q ∈ pre := fun q => by
    rw [List.mem_reverse, List.mem_dedup]
  exact ⟨pre.dedup.reverse, ExecuteChain_calls_of_failure_dedup pre post a e s hpre hfail, rfl,
    hnd, hmem, fun q hq => count_undo_of_nodup _ hnd q ((hmem q).mpr hq),
    dedup_reverse_order pre⟩

/-- On records whose callbacks see the caller world only: when the failing
action `a` of a chain `pre ++ a :: post` is an
instance that also occurs in `pre`, the unwind does invoke the backward
callback of `a`, exactly once, and `a` ends committed: the failing `Execute`
re-armed it.  The backward callback of the failing action is left out of the
unwind exactly when `a` does not occur in `pre`, and then `a` ends armed. -/
theorem failing_instance_undone_iff_seen_before (pre post : List Addr) (a : Addr) (e : E)
    (s : State W E)
    (hpre : forwardsSucceed s.execOf pre s.world = true)
    (hfail : (s.execOf a (forwardWorld s.execOf pre s.world)).1 = some e) :
    ∃ t : List Call,
      (ExecuteChain (pre ++ a :: post) s).2.calls
        = s.calls ++ (pre.map Call.exec ++ [Call.exec a] ++ t) ∧
      (∀ c ∈ t, ∃ q, c = Call.undo q) ∧
      (Call.undo a ∈ t ↔ a ∈ pre) ∧
      (a ∈ pre → t.count (Call.undo a) = 1 ∧
        ((ExecuteChain (pre ++ a :: post) s).2.heap a).committed = true) ∧
      (a ∉ pre → ((ExecuteChain (pre ++ a :: post) s).2.heap a).committed = false) := by
  have hnd : pre.dedup.reverse.Nodup := List.nodup_reverse.mpr (List.nodup_dedup pre)
  have hmem : ∀ q, q ∈ pre.dedup.reverse ↔ q ∈ pre := fun q => by
    rw [List.mem_reverse, List.mem_dedup]
  have hfl := ExecuteChain_flags_of_failure pre post a e s hpre hfail a
  refine ⟨pre.dedup.reverse.map Call.undo,
    ExecuteChain_calls_of_failure_dedup pre post a e s hpre hfail, ?_, ?_, ?_, ?_⟩
  · intro c hc
    obtain ⟨q, _, hq⟩ := List.mem_map.mp hc
    exact ⟨q, hq.symm⟩
  · constructor
    · intro h
      obtain ⟨q, hq, hqa⟩ := List.mem_map.mp h
      have hqa1 : q = a := by injection hqa
      exact (hmem a).mp (hqa1 ▸ hq)
    · intro h
      exact List.mem_map_of_mem Call.undo ((hmem a).mpr h)
  · intro h
    refine ⟨count_undo_of_nodup _ hnd a ((hmem a).mpr h), ?_⟩
    rw [heap_committed_eq, hfl]
    simp [h]
  · intro h
    rw [heap_committed_eq, hfl]
    simp [h]

/-! ## Closures over the caller world inside the closure layer

For closures that do not touch the actions the second layer computes what the
first one does. -/

section simulation

@[simp] theorem setCommitted_closures (s : State W E) (p : Addr) (b : Bool) :
    (s.setCommitted p b).closures = s.closures := by
  simp [State.closures]

@[simp] theorem Execute_closures (p : Addr) (s : State W E) :
    (Undo.Execute p s).2.closures = s.closures := by
  simp [State.closures]

@[simp] theorem Undo_closures (p : Addr) (s : State W E) :
    (Undo.Undo p s).closures = s.closures := by
  simp [State.closures]

@[simp] theorem Commit_closures (p : Addr) (s : State W E) :
    (Undo.Commit p s).closures = s.closures := by
  simp [State.closures]

theorem sim_Execute (p : Addr) (s : State W E) :
    Reentrant.Execute s.closures p s.mem
      = ((Undo.Execute p s).1, (Undo.Execute p s).2.mem) := by
  apply Prod.ext
  · simp [Reentrant.Execute, State.closures, Closures.ofPlain, State.mem]
  · apply Mem.ext
    · simp [Reentrant.Execute, State.closures, Closures.ofPlain, State.mem]
    · simp [Reentrant.Execute, State.closures, Closures.ofPlain, State.mem]
    · simp [Reentrant.Execute, State.closures, Closures.ofPlain, State.mem]

theorem sim_Undo (p : Addr) (s : State W E) :
    Reentrant.Undo s.closures p s.mem = (Undo.Undo p s).mem := by
  by_cases h : s.flags p = false
  · have hm : s.mem.committed p = false := h
    apply Mem.ext
    · simp only [Reentrant.Undo, hm, if_true, State.closures, Closures.ofPlain]
      exact (Undo_flags_of_armed p s h).symm
    · simp only [Reentrant.Undo, hm, if_true, State.closures, Closures.ofPlain]
      exact (Undo_world_of_armed p s h).symm
    · simp only [Reentrant.Undo, hm, if_true, State.closures, Closures.ofPlain]
      exact (Undo_calls_of_armed p s h).symm
  · have h1 : s.flags p = true := by simpa using h
    have hm : s.mem.committed p = true := h1
    rw [Undo_of_committed p s h1]
    simp [Reentrant.Undo, hm]

theorem sim_Commit (p : Addr) (s : State W E) :
    Reentrant.Commit p s.mem = (Undo.Commit p s).mem := by
  apply Mem.ext
  · simp [Reentrant.Commit, State.mem]
  · rfl
  · rfl

theorem sim_CommitAll (l : List Addr) (s : State W E) :
    Reentrant.CommitAll l s.mem = (CommitAll l s).mem := by
  induction l generalizing s with
  | nil => rfl
  | cons a l ih => rw [Reentrant.CommitAll, sim_Commit, ih, CommitAll]

theorem sim_runDeferred (d : List Addr) (s : State W E) :
    Reentrant.runDeferred s.closures d s.mem = (ExecuteChain.runDeferred d s).mem := by
  induction d generalizing s with
  | nil => rfl
  | cons a d ih =>
    rw [Reentrant.runDeferred, sim_Undo, ← Undo_closures a s, ih, ExecuteChain.runDeferred]

theorem sim_loop (l d : List Addr) (s : State W E) :
    Reentrant.loop s.closures l d s.mem
      = ((ExecuteChain.loop l d s).1, (ExecuteChain.loop l d s).2.1,
          (ExecuteChain.loop l d s).2.2.mem) := by
  induction l generalizing d s with
  | nil => rfl
  | cons a l ih =>
    rw [Reentrant.loop, sim_Execute, ExecuteChain.loop]
    have hc := Execute_closures a s
    rcases hx : Undo.Execute a s with ⟨r, s1⟩
    rw [hx] at hc
    simp only at hc
    cases r with
    | some err => rfl
    | none =>
      simp only
      rw [← hc, ih]

@[simp] theorem CommitAll_closures (l : List Addr) (s : State W E) :
    (CommitAll l s).closures = s.closures := by
  simp [State.closures]

theorem loop_closures (l d : List Addr) (s : State W E) :
    (ExecuteChain.loop l d s).2.2.closures = s.closures := by
  induction l generalizing d s with
  | nil => rfl
  | cons a l ih =>
    rw [ExecuteChain.loop]
    have hc := Execute_closures a s
    rcases hx : Undo.Execute a s with ⟨r, s1⟩
    rw [hx] at hc
    simp only at hc
    cases r with
    | some err => exact hc
    | none =>
      simp only
      rw [ih, hc]

theorem sim_ExecuteChain (chain : List Addr) (s : State W E) :
    Reentrant.ExecuteChain s.closures chain s.mem
      = ((ExecuteChain chain s).1, (ExecuteChain chain s).2.mem) := by
  rw [Reentrant.ExecuteChain, sim_loop, ExecuteChain]
  have hc := loop_closures chain [] s
  rcases hx : ExecuteChain.loop chain [] s with ⟨r, d, s1⟩
  rw [hx] at hc
  simp only at hc
  cases r with
  | some err =>
    simp only
    rw [← hc, sim_runDeferred]
  | none =>
    simp only
    rw [← hc, sim_CommitAll, ← CommitAll_closures chain s1, sim_runDeferred]

/-- For closures `x`, `u` over the caller world, `ExecuteChain` of the
closure layer is `ExecuteChain` on the records holding `x` and `u`. -/
theorem ExecuteChain_ofPlain (x : Addr → W → Option E × W) (u : Addr → W → W)
    (chain : List Addr) (m : Mem W) :
    Reentrant.ExecuteChain (Closures.ofPlain x u) chain m
      = ((ExecuteChain chain (stateOf x u m)).1, (ExecuteChain chain (stateOf x u m)).2.mem) :=
  sim_ExecuteChain chain (stateOf x u m)

theorem Execute_ofPlain (x : Addr → W → Option E × W) (u : Addr → W → W)
    (p : Addr) (m : Mem W) :
    Reentrant.Execute (Closures.ofPlain x u) p m
      = ((Undo.Execute p (stateOf x u m)).1, (Undo.Execute p (stateOf x u m)).2.mem) :=
  sim_Execute p (stateOf x u m)

theorem Undo_ofPlain (x : Addr → W → Option E × W) (u : Addr → W → W)
    (p : Addr) (m : Mem W) :
    Reentrant.Undo (Closures.ofPlain x u) p m = (Undo.Undo p (stateOf x u m)).mem :=
  sim_Undo p (stateOf x u m)

end simulation

/-! ## What it means not to touch the actions -/

/-- The closures of the form `Closures.ofPlain x u` are exactly those that
neither write nor read the actions: every closure leaves all flags and the
invocation log as they were, and its result and its effect on the caller
world depend on the caller world alone. -/
theorem Closures.ofPlain_iff (c : Closures W E) :
    (∃ x u, c = Closures.ofPlain x u) ↔
    ∀ p m,
      (c.exec p m).2.committed = m.committed ∧ (c.exec p m).2.calls = m.calls ∧
      (c.undo p m).committed = m.committed ∧ (c.undo p m).calls = m.calls ∧
      ∀ m1 : Mem W, m1.world = m.world →
        (c.exec p m1).1 = (c.exec p m).1 ∧ (c.exec p m1).2.world = (c.exec p m).2.world ∧
        (c.undo p m1).world = (c.undo p m).world := by
  constructor
  · rintro ⟨x, u, rfl⟩ p m
    refine ⟨rfl, rfl, rfl, rfl, ?_⟩
    intro m1 h
    simp [Closures.ofPlain, h]
  · intro h
    refine ⟨fun p w => ((c.exec p ⟨fun _ => false, w, []⟩).1,
        (c.exec p ⟨fun _ => false, w, []⟩).2.world),
      fun p w => (c.undo p ⟨fun _ => false, w, []⟩).world, ?_⟩
    obtain ⟨cx, cu⟩ := c
    simp only [Closures.ofPlain, Closures.mk.injEq]
    constructor
    · funext p m
      obtain ⟨h1, h2, _, _, h5⟩ := h p m
      obtain ⟨h6, h7, _⟩ := h5 ⟨fun _ => false, m.world, []⟩ rfl
      apply Prod.ext
      · exact h6.symm
      · apply Mem.ext
        · exact h1
        · exact h7.symm
        · exact h2
    · funext p m
      obtain ⟨_, _, h3, h4, h5⟩ := h p m
      obtain ⟨_, _, h8⟩ := h5 ⟨fun _ => false, m.world, []⟩ rfl
      apply Mem.ext
      · exact h3
      · exact h8.symm
      · exact h4

/-! ## Single actions whose closures may or may not touch them -/

section plainsingle

variable (x : Addr → W → Option E × W) (u : Addr → W → W) (p : Addr) (m : Mem W)

theorem Reentrant.Undo_ofPlain_committed :
    (Reentrant.Undo (Closures.ofPlain x u) p m).committed p = true := by
  by_cases h : m.committed p = false
  · simp [Reentrant.Undo, Closures.ofPlain, h]
  · have h1 : m.committed p = true := by simpa using h
    simp [Reentrant.Undo, h1]

theorem Reentrant.Undo_eq_self_of_committed (c : Closures W E) (h : m.committed p = true) :
    Reentrant.Undo c p m = m := by
  simp [Reentrant.Undo, h]

theorem Reentrant.Undo_Undo_ofPlain :
    Reentrant.Undo (Closures.ofPlain x u) p (Reentrant.Undo (Closures.ofPlain x u) p m)
      = Reentrant.Undo (Closures.ofPlain x u) p m :=
  Reentrant.Undo_eq_self_of_committed p _ _ (Reentrant.Undo_ofPlain_committed x u p m)

theorem Reentrant.Execute_Undo_calls_ofPlain :
    (Reentrant.Undo (Closures.ofPlain x u) p
        (Reentrant.Execute (Closures.ofPlain x u) p m).2).calls
      = m.calls ++ [Call.exec p, Call.undo p] := by
  simp [Reentrant.Undo, Reentrant.Execute, Closures.ofPlain]

end plainsingle

/-- C4, for callbacks that do not touch the action: `Undo` is idempotent.
In every memory two calls in a row leave exactly the memory of one call
(flags, caller world, invocations), and after `Execute`, `n ≥ 1` consecutive
calls of `Undo` invoke the backward callback once, on the first call. -/
theorem Undo_idempotent_no_touch (x : Addr → W → Option E × W) (u : Addr → W → W)
    (p : Addr) (m : Mem W) (n : Nat) (hn : 1 ≤ n) :
    Reentrant.Undo (Closures.ofPlain x u) p (Reentrant.Undo (Closures.ofPlain x u) p m)
      = Reentrant.Undo (Closures.ofPlain x u) p m ∧
    (Reentrant.Undo (Closures.ofPlain x u) p
        (Reentrant.Execute (Closures.ofPlain x u) p m).2).calls
      = m.calls ++ [Call.exec p, Call.undo p] ∧
    (Reentrant.Undo (Closures.ofPlain x u) p)^[n]
        (Reentrant.Execute (Closures.ofPlain x u) p m).2
      = Reentrant.Undo (Closures.ofPlain x u) p
          (Reentrant.Execute (Closures.ofPlain x u) p m).2 ∧
    ((Reentrant.Undo (Closures.ofPlain x u) p)^[n]
        (Reentrant.Execute (Closures.ofPlain x u) p m).2).calls
      = m.calls ++ [Call.exec p, Call.undo p] := by
  obtain ⟨k, rfl⟩ : ∃ k, n = k + 1 := ⟨n - 1, by omega⟩
  have hit : (Reentrant.Undo (Closures.ofPlain x u) p)^[k + 1]
        (Reentrant.Execute (Closures.ofPlain x u) p m).2
      = Reentrant.Undo (Closures.ofPlain x u) p
          (Reentrant.Execute (Closures.ofPlain x u) p m).2 := by
    rw [Function.iterate_succ_apply]
    exact Function.iterate_fixed (Reentrant.Undo_Undo_ofPlain x u p _) k
  refine ⟨Reentrant.Undo_Undo_ofPlain x u p m, Reentrant.Execute_Undo_calls_ofPlain x u p m,
    hit, ?_⟩
  rw [hit, Reentrant.Execute_Undo_calls_ofPlain]

/-- C4 on the counter of `TestUndo`: execute, then undo three times; the
backward callback ran once and `num` is back at 5. -/
theorem Undo_idempotent_no_touch_witness :
    ((Reentrant.Undo (Closures.ofPlain (fun _ => testInc) (fun _ => testDec)) 0)^[3]
        (Reentrant.Execute (Closures.ofPlain (fun _ => testInc) (fun _ => testDec)) 0
          testStateUndo.mem).2).calls
      = [Call.exec 0, Call.undo 0] ∧
    ((Reentrant.Undo (Closures.ofPlain (fun _ => testInc) (fun _ => testDec)) 0)^[3]
        (Reentrant.Execute (Closures.ofPlain (fun _ => testInc) (fun _ => testDec)) 0
          testStateUndo.mem).2).world = 5 :=
  ⟨(Undo_idempotent_no_touch (fun _ => testInc) (fun _ => testDec) 0 testStateUndo.mem 3
      (by decide)).2.2.2, by decide⟩

/-- C4 fails for a backward closure that touches its own action,
`func() { u.Execute() }`: after `Execute`, the second `Undo` in a row finds
the action armed again and runs the backward closure a second time. -/
theorem Undo_not_idempotent_when_backward_executes :
    (∀ m, closuresReexecute.undo 0 m = (Reentrant.Execute closuresReexecute 0 m).2) ∧
    (Reentrant.Undo closuresReexecute 0 (Reentrant.Execute closuresReexecute 0 freshMem).2).calls
      = [Call.exec 0, Call.undo 0, Call.exec 0] ∧
    (Reentrant.Undo closuresReexecute 0
        (Reentrant.Undo closuresReexecute 0
          (Reentrant.Execute closuresReexecute 0 freshMem).2)).calls
      = [Call.exec 0, Call.undo 0, Call.exec 0, Call.undo 0, Call.exec 0] ∧
    ((Reentrant.Undo closuresReexecute 0)^[2]
        (Reentrant.Execute closuresReexecute 0 freshMem).2).calls.count (Call.undo 0) = 2 ∧
    ¬ (Reentrant.Undo closuresReexecute 0
          (Reentrant.Undo closuresReexecute 0
            (Reentrant.Execute closuresReexecute 0 freshMem).2)
        = Reentrant.Undo closuresReexecute 0
            (Reentrant.Execute closuresReexecute 0 freshMem).2) := by
  refine ⟨fun m => rfl, by decide, by decide, by decide, ?_⟩
  intro h
  have hc := congrArg (fun r => r.calls.length) h
  revert hc
  decide

/-- C6, for callbacks that do not touch the action: in every memory
`Execute` followed by `Undo` invokes the forward callback once and then the
backward callback once, so `Execute, Undo, Execute, Undo` invokes the
backward callback exactly twice. -/
theorem rearm_on_reuse_no_touch (x : Addr → W → Option E × W) (u : Addr → W → W)
    (p : Addr) (m : Mem W) :
    (Reentrant.Undo (Closures.ofPlain x u) p
        (Reentrant.Execute (Closures.ofPlain x u) p m).2).calls
      = m.calls ++ [Call.exec p, Call.undo p] ∧
    (∃ t : List Call,
      (Reentrant.Undo (Closures.ofPlain x u) p
          (Reentrant.Execute (Closures.ofPlain x u) p
            (Reentrant.Undo (Closures.ofPlain x u) p
              (Reentrant.Execute (Closures.ofPlain x u) p m).2)).2).calls = m.calls ++ t ∧
      t = [Call.exec p, Call.undo p, Call.exec p, Call.undo p] ∧
      t.count (Call.undo p) = 2) := by
  refine ⟨Reentrant.Execute_Undo_calls_ofPlain x u p m,
    [Call.exec p, Call.undo p, Call.exec p, Call.undo p], ?_, rfl, ?_⟩
  · rw [Reentrant.Execute_Undo_calls_ofPlain, Reentrant.Execute_Undo_calls_ofPlain]
    simp
  · simp [List.count_cons]

/-- C6 fails for a forward closure that touches its own action,
`func() error { u.Commit(); return nil }`: `Execute` followed by `Undo`
invokes the forward closure and no backward closure. -/
theorem no_rearm_when_forward_commits :
    (∀ m, (closuresCommitOther 0 0).exec 0 m = (none, Reentrant.Commit 0 m)) ∧
    (Reentrant.Undo (closuresCommitOther 0 0) 0
        (Reentrant.Execute (closuresCommitOther 0 0) 0 freshMem).2).calls = [Call.exec 0] ∧
    ¬ ((Reentrant.Undo (closuresCommitOther 0 0) 0
          (Reentrant.Execute (closuresCommitOther 0 0) 0 freshMem).2).calls
        = freshMem.calls ++ [Call.exec 0, Call.undo 0]) := by
  refine ⟨fun m => rfl, by decide, by decide⟩

/-- C7, for callbacks that do not touch the action: `Execute` invokes the
forward callback once and nothing else, returns what the forward callback
returned, and leaves `committed = false` whatever the outcome, so that an
`Undo` right after it invokes the backward callback. -/
theorem Execute_contract_no_touch (x : Addr → W → Option E × W) (u : Addr → W → W)
    (p : Addr) (m : Mem W) :
    (Reentrant.Execute (Closures.ofPlain x u) p m).2.calls = m.calls ++ [Call.exec p] ∧
    (Reentrant.Execute (Closures.ofPlain x u) p m).1 = (x p m.world).1 ∧
    (Reentrant.Execute (Closures.ofPlain x u) p m).2.world = (x p m.world).2 ∧
    (Reentrant.Execute (Closures.ofPlain x u) p m).2.committed p = false ∧
    (Reentrant.Undo (Closures.ofPlain x u) p
        (Reentrant.Execute (Closures.ofPlain x u) p m).2).calls
      = m.calls ++ [Call.exec p, Call.undo p] ∧
    (Reentrant.Undo (Closures.ofPlain x u) p
        (Reentrant.Execute (Closures.ofPlain x u) p m).2).world = u p (x p m.world).2 := by
  refine ⟨rfl, rfl, rfl, ?_, Reentrant.Execute_Undo_calls_ofPlain x u p m, ?_⟩
  · simp [Reentrant.Execute, Closures.ofPlain]
  · simp [Reentrant.Undo, Reentrant.Execute, Closures.ofPlain]

/-- C7 fails for a forward closure that touches its own action,
`func() error { u.Commit(); return nil }`: `Execute` returns with
`committed = true`, and the `Undo` that follows invokes nothing. -/
theorem Execute_leaves_committed_when_forward_commits :
    (∀ m, (closuresCommitOther 0 0).exec 0 m = (none, Reentrant.Commit 0 m)) ∧
    (Reentrant.Execute (closuresCommitOther 0 0) 0 freshMem).2.committed 0 = true ∧
    ¬ ((Reentrant.Execute (closuresCommitOther 0 0) 0 freshMem).2.committed 0 = false) ∧
    (Reentrant.Undo (closuresCommitOther 0 0) 0
        (Reentrant.Execute (closuresCommitOther 0 0) 0 freshMem).2).calls
      = (Reentrant.Execute (closuresCommitOther 0 0) 0 freshMem).2.calls := by
  refine ⟨fun m => rfl, by decide, by decide, by decide⟩

/-! ## Chains whose closures may or may not touch the actions -/

section plainchain

theorem ExecuteChain_undoOf (chain : List Addr) (s : State W E) :
    (ExecuteChain chain s).2.undoOf = s.undoOf := by
  cases hs : forwardsSucceed s.execOf chain s.world with
  | true => rw [ExecuteChain_of_succeed chain s hs]; simp
  | false =>
    obtain ⟨pre, a, post, e, hc, hp, ha⟩ := exists_first_failure _ _ _ hs
    subst hc
    rw [ExecuteChain_of_failure pre post a e s hp ha]
    simp

theorem ExecuteChain_closures (chain : List Addr) (s : State W E) :
    (ExecuteChain chain s).2.closures = s.closures := by
  simp only [State.closures, ExecuteChain_execOf, ExecuteChain_undoOf]

theorem Undo_mem_of_closures (c : Closures W E) (p : Addr) (s : State W E)
    (hc : s.closures = c) : Reentrant.Undo c p s.mem = (Undo.Undo p s).mem := by
  rw [← hc]
  exact sim_Undo p s

theorem ExecuteChain_mem_of_closures (c : Closures W E) (chain : List Addr) (s : State W E)
    (hc : s.closures = c) :
    Reentrant.ExecuteChain c chain s.mem
      = ((ExecuteChain chain s).1, (ExecuteChain chain s).2.mem) := by
  rw [← hc]
  exact sim_ExecuteChain chain s

end plainchain

/-- C2, for callbacks that do not touch the actions: when every forward
callback of the chain succeeds, `ExecuteChain` returns `nil`, the invocations
are exactly the forward callbacks in chain order, no backward callback is
invoked, every action of the chain ends with `committed = true`, and the
caller world is the one the forward callbacks produce.  On the empty chain
the memory is returned unchanged. -/
theorem chain_success_no_touch (x : Addr → W → Option E × W) (u : Addr → W → W)
    (chain : List Addr) (m : Mem W)
    (h : forwardsSucceed x chain m.world = true) :
    (Reentrant.ExecuteChain (Closures.ofPlain x u) chain m).1 = none ∧
    (∃ t : List Call,
      (Reentrant.ExecuteChain (Closures.ofPlain x u) chain m).2.calls = m.calls ++ t ∧
      t = chain.map Call.exec ∧ ∀ q, Call.undo q ∉ t) ∧
    (∀ q ∈ chain,
      (Reentrant.ExecuteChain (Closures.ofPlain x u) chain m).2.committed q = true) ∧
    (Reentrant.ExecuteChain (Closures.ofPlain x u) chain m).2.world
      = forwardWorld x chain m.world ∧
    (chain = [] → Reentrant.ExecuteChain (Closures.ofPlain x u) chain m = (none, m)) := by
  obtain ⟨h1, h2, h3, h4, _⟩ := chain_success chain (stateOf x u m) h
  rw [ExecuteChain_ofPlain]
  refine ⟨h1, h2, h3, h4, ?_⟩
  intro hc
  subst hc
  rfl

/-- C2 on the chain of `TestExecuteChainSuccess`. -/
theorem chain_success_no_touch_witness :
    (Reentrant.ExecuteChain testStateSuccess.closures [0, 1, 2, 3] testStateSuccess.mem).1
      = none ∧
    (∃ t : List Call,
      (Reentrant.ExecuteChain testStateSuccess.closures [0, 1, 2, 3] testStateSuccess.mem).2.calls
        = testStateSuccess.mem.calls ++ t ∧
      t = [Call.exec 0, Call.exec 1, Call.exec 2, Call.exec 3] ∧ ∀ q, Call.undo q ∉ t) ∧
    (∀ q ∈ [0, 1, 2, 3],
      (Reentrant.ExecuteChain testStateSuccess.closures [0, 1, 2, 3]
        testStateSuccess.mem).2.committed q = true) ∧
    (Reentrant.ExecuteChain testStateSuccess.closures [0, 1, 2, 3] testStateSuccess.mem).2.world
      = ["execute action1", "execute action2", "execute action3", "execute action4"] ∧
    (([0, 1, 2, 3] : List Addr) = [] →
      Reentrant.ExecuteChain testStateSuccess.closures [0, 1, 2, 3] testStateSuccess.mem
        = (none, testStateSuccess.mem)) :=
  chain_success_no_touch testStateSuccess.execOf testStateSuccess.undoOf [0, 1, 2, 3]
    testStateSuccess.mem (by decide)

/-- C2 fails for a forward closure that touches another action: with the
forward closure of the second action `func() error { a0.Undo(); return nil }`,
`ExecuteChain(a0, a1)` has every forward succeed and returns `nil`, yet the
backward closure of `a0` is invoked. -/
theorem chain_success_runs_backward_when_forward_undoes :
    (∀ m, (closuresUndoOther 1 0).exec 1 m
      = (none, Reentrant.Undo (closuresUndoOther 1 0) 0 m)) ∧
    (Reentrant.ExecuteChain (closuresUndoOther 1 0) [0, 1] freshMem).1 = none ∧
    (Reentrant.ExecuteChain (closuresUndoOther 1 0) [0, 1] freshMem).2.calls
      = [Call.exec 0, Call.exec 1, Call.undo 0] ∧
    Call.undo 0 ∈ (Reentrant.ExecuteChain (closuresUndoOther 1 0) [0, 1] freshMem).2.calls ∧
    ¬ ((Reentrant.ExecuteChain (closuresUndoOther 1 0) [0, 1] freshMem).2.calls
        = freshMem.calls ++ [Call.exec 0, Call.exec 1]) := by
  refine ⟨fun m => rfl, by decide, by decide, by decide, by decide⟩

/-- C10, for callbacks that do not touch the actions: when the outcome of
every forward callback of the chain is fixed (it does not depend on the
caller world), running `ExecuteChain` a second time on the same actions, in
the memory the first run left, returns the same result and makes the same
sequence of forward and backward invocations as the first run. -/
theorem rerun_identical_no_touch (x : Addr → W → Option E × W) (u : Addr → W → W)
    (chain : List Addr) (m : Mem W)
    (hfix : ∀ a ∈ chain, ∀ w w1, (x a w).1 = (x a w1).1) :
    (Reentrant.ExecuteChain (Closures.ofPlain x u) chain
        (Reentrant.ExecuteChain (Closures.ofPlain x u) chain m).2).1
      = (Reentrant.ExecuteChain (Closures.ofPlain x u) chain m).1 ∧
    ∃ t : List Call,
      (Reentrant.ExecuteChain (Closures.ofPlain x u) chain m).2.calls = m.calls ++ t ∧
      (Reentrant.ExecuteChain (Closures.ofPlain x u) chain
          (Reentrant.ExecuteChain (Closures.ofPlain x u) chain m).2).2.calls
        = (Reentrant.ExecuteChain (Closures.ofPlain x u) chain m).2.calls ++ t := by
  have h2 := ExecuteChain_mem_of_closures (Closures.ofPlain x u) chain
    (ExecuteChain chain (stateOf x u m)).2 (ExecuteChain_closures chain (stateOf x u m))
  have h1 := ExecuteChain_ofPlain x u chain m
  rw [h1]
  simp only
  rw [h2]
  exact rerun_identical chain (stateOf x u m) hfix

/-- C10 on the chain of `TestExecuteChainError`, whose third action always
fails. -/
theorem rerun_identical_no_touch_witness :
    (Reentrant.ExecuteChain testStateError.closures [0, 1, 2, 3]
        (Reentrant.ExecuteChain testStateError.closures [0, 1, 2, 3] testStateError.mem).2).1
      = (Reentrant.ExecuteChain testStateError.closures [0, 1, 2, 3] testStateError.mem).1 ∧
    ∃ t : List Call,
      (Reentrant.ExecuteChain testStateError.closures [0, 1, 2, 3] testStateError.mem).2.calls
        = testStateError.mem.calls ++ t ∧
      (Reentrant.ExecuteChain testStateError.closures [0, 1, 2, 3]
          (Reentrant.ExecuteChain testStateError.closures [0, 1, 2, 3]
            testStateError.mem).2).2.calls
        = (Reentrant.ExecuteChain testStateError.closures [0, 1, 2, 3]
            testStateError.mem).2.calls ++ t :=
  rerun_identical_no_touch testStateError.execOf testStateError.undoOf [0, 1, 2, 3]
    testStateError.mem (by
      intro a _ w w1
      rcases a with _ | _ | _ | _ | a <;> rfl)

/-- C10 fails for a forward closure that touches another action: with the
forward closure of the first action `func() error { a1.Undo(); return nil }`
every forward outcome is fixed, but on two fresh actions the first run of
`ExecuteChain(a0, a1)` invokes forward 0, backward 1, forward 1 and the second
run only forward 0, forward 1. -/
theorem rerun_differs_when_forward_undoes :
    (∀ m, (closuresUndoOther 0 1).exec 0 m
      = (none, Reentrant.Undo (closuresUndoOther 0 1) 1 m)) ∧
    (∀ p m m1, ((closuresUndoOther 0 1).exec p m).1 = ((closuresUndoOther 0 1).exec p m1).1) ∧
    (Reentrant.ExecuteChain (closuresUndoOther 0 1) [0, 1] freshMem).2.calls
      = freshMem.calls ++ [Call.exec 0, Call.undo 1, Call.exec 1] ∧
    (Reentrant.ExecuteChain (closuresUndoOther 0 1) [0, 1]
        (Reentrant.ExecuteChain (closuresUndoOther 0 1) [0, 1] freshMem).2).2.calls
      = (Reentrant.ExecuteChain (closuresUndoOther 0 1) [0, 1] freshMem).2.calls
        ++ [Call.exec 0, Call.exec 1] := by
  refine ⟨fun m => rfl, ?_, by decide, by decide⟩
  intro p m m1
  by_cases hp : p = 0
  · simp [closuresUndoOther, hp]
  · simp [closuresUndoOther, hp, baseClosures, Closures.ofPlain, baseExec]

/-- C15, for callbacks that do not touch the actions: after `ExecuteChain`
has failed at the action `a` of a chain `pre ++ a :: post` of pairwise
distinct instances, every action of `pre` has `committed = true` (a later
`Undo` on it changes nothing), the failing action `a` has `committed = false`
(a later `Undo` on it would invoke its backward callback), and the flag of
every action of `post` is what it was before the call. -/
theorem chain_failure_flags_no_touch (x : Addr → W → Option E × W) (u : Addr → W → W)
    (pre post : List Addr) (a : Addr) (e : E) (m : Mem W)
    (hnd : (pre ++ a :: post).Nodup)
    (hpre : forwardsSucceed x pre m.world = true)
    (hfail : (x a (forwardWorld x pre m.world)).1 = some e) :
    (∀ q ∈ pre,
      (Reentrant.ExecuteChain (Closures.ofPlain x u) (pre ++ a :: post) m).2.committed q = true ∧
      Reentrant.Undo (Closures.ofPlain x u) q
          (Reentrant.ExecuteChain (Closures.ofPlain x u) (pre ++ a :: post) m).2
        = (Reentrant.ExecuteChain (Closures.ofPlain x u) (pre ++ a :: post) m).2) ∧
    (Reentrant.ExecuteChain (Closures.ofPlain x u) (pre ++ a :: post) m).2.committed a = false ∧
    (Reentrant.Undo (Closures.ofPlain x u) a
        (Reentrant.ExecuteChain (Closures.ofPlain x u) (pre ++ a :: post) m).2).calls
      = (Reentrant.ExecuteChain (Closures.ofPlain x u) (pre ++ a :: post) m).2.calls
        ++ [Call.undo a] ∧
    (∀ q ∈ post,
      (Reentrant.ExecuteChain (Closures.ofPlain x u) (pre ++ a :: post) m).2.committed q
        = m.committed q) := by
  obtain ⟨h1, h2, h3, h4⟩ := chain_failure_flags pre post a e (stateOf x u m) hnd hpre hfail
  have hc := ExecuteChain_closures (pre ++ a :: post) (stateOf x u m)
  have hE := ExecuteChain_ofPlain x u (pre ++ a :: post) m
  rw [hE]
  simp only
  refine ⟨fun q hq => ⟨(h1 q hq).1, ?_⟩, h2, ?_, h4⟩
  · rw [Undo_mem_of_closures (Closures.ofPlain x u) q _ hc, (h1 q hq).2]
  · rw [Undo_mem_of_closures (Closures.ofPlain x u) a _ hc]
    exact h3

/-- C15 on the chain of `TestExecuteChainError`, with action 4 committed
beforehand: actions 1 and 2 end committed, the failing action 3 ends armed,
action 4 keeps its flag. -/
theorem chain_failure_flags_no_touch_witness :
    (Reentrant.ExecuteChain testStateError.closures ([0, 1] ++ 2 :: [3])
        (Undo.Commit 3 testStateError).mem).2.committed 0 = true ∧
    (Reentrant.ExecuteChain testStateError.closures ([0, 1] ++ 2 :: [3])
        (Undo.Commit 3 testStateError).mem).2.committed 1 = true ∧
    (Reentrant.ExecuteChain testStateError.closures ([0, 1] ++ 2 :: [3])
        (Undo.Commit 3 testStateError).mem).2.committed 2 = false ∧
    (Reentrant.ExecuteChain testStateError.closures ([0, 1] ++ 2 :: [3])
        (Undo.Commit 3 testStateError).mem).2.committed 3
      = (Undo.Commit 3 testStateError).mem.committed 3 := by
  obtain ⟨h1, h2, _, h4⟩ := chain_failure_flags_no_touch testStateError.execOf
    testStateError.undoOf [0, 1] [3] 2 "oops, an error occurred"
    (Undo.Commit 3 testStateError).mem (by decide) (by decide) (by decide)
  exact ⟨(h1 0 (by decide)).1, (h1 1 (by decide)).1, h2, h4 3 (by decide)⟩

/-- C15 fails for a forward closure that touches a later action: with the
forward closure of the first action `func() error { a3.Commit(); return nil }`
and the second action failing, `ExecuteChain(a1, a2, a3)` on three distinct
fresh actions leaves the flag of `a3`, which was `false`, at `true`. -/
theorem later_flag_changes_when_forward_commits :
    (∀ m, (closuresCommitOther 0 3).exec 0 m = (none, Reentrant.Commit 3 m)) ∧
    (Reentrant.ExecuteChain (closuresCommitOther 0 3) [0, 2, 3] freshMem).1 = some "failed" ∧
    (Reentrant.ExecuteChain (closuresCommitOther 0 3) [0, 2, 3] freshMem).2.calls
      = [Call.exec 0, Call.exec 2, Call.undo 0] ∧
    freshMem.committed 3 = false ∧
    (Reentrant.ExecuteChain (closuresCommitOther 0 3) [0, 2, 3] freshMem).2.committed 3 = true ∧
    ¬ ((Reentrant.ExecuteChain (closuresCommitOther 0 3) [0, 2, 3] freshMem).2.committed 3
        = freshMem.committed 3) := by
  refine ⟨fun m => rfl, by decide, by decide, by decide, by decide, by decide⟩

/-- C16, for callbacks that do not touch the actions: when a chain
`pre ++ a :: post`, in which instances may repeat, fails at `a`, the unwind
invokes the backward callback once for each distinct instance of `pre`, not
once per successful execution.  The instances undone are `pre` with only the
last occurrence of each kept, taken from the back: an instance is undone
before another exactly when its last occurrence in `pre` is the later one
(its first occurrence in `pre.reverse` is the earlier one). -/
theorem unwind_once_per_instance_no_touch (x : Addr → W → Option E × W) (u : Addr → W → W)
    (pre post : List Addr) (a : Addr) (e : E) (m : Mem W)
    (hpre : forwardsSucceed x pre m.world = true)
    (hfail : (x a (forwardWorld x pre m.world)).1 = some e) :
    ∃ t : List Addr,
      (Reentrant.ExecuteChain (Closures.ofPlain x u) (pre ++ a :: post) m).2.calls
        = m.calls ++ (pre.map Call.exec ++ [Call.exec a] ++ t.map Call.undo) ∧
      t = pre.dedup.reverse ∧
      t.Nodup ∧
      (∀ q, q ∈ t ↔ q ∈ pre) ∧
      (∀ q ∈ pre, (t.map Call.undo).count (Call.undo q) = 1) ∧
      (∀ q ∈ pre, ∀ r ∈ pre,
        (t.indexOf q < t.indexOf r ↔ pre.reverse.indexOf q < pre.reverse.indexOf r)) := by
  have hE := ExecuteChain_ofPlain x u (pre ++ a :: post) m
  rw [hE]
  exact unwind_once_per_instance pre post a e (stateOf x u m) hpre hfail

/-- C16 on the actions of `TestExecuteChainError` with action 1 run twice
before the failure: the chain 1, 2, 1, 3, 4 undoes action 1 and then action 2,
each once. -/
theorem unwind_once_per_instance_no_touch_witness :
    (Reentrant.ExecuteChain testStateError.closures ([0, 1, 0] ++ 2 :: [3])
        testStateError.mem).2.calls
      = [Call.exec 0, Call.exec 1, Call.exec 0, Call.exec 2, Call.undo 0, Call.undo 1] := by
  obtain ⟨t, hcalls, ht, _⟩ := unwind_once_per_instance_no_touch testStateError.execOf
    testStateError.undoOf [0, 1, 0] [3] 2 "oops, an error occurred" testStateError.mem
    (by decide) (by decide)
  have hc : (Reentrant.ExecuteChain testStateError.closures ([0, 1, 0] ++ 2 :: [3])
      testStateError.mem).2.calls
      = testStateError.mem.calls
        ++ ([0, 1, 0].map Call.exec ++ [Call.exec 2] ++ t.map Call.undo) := hcalls
  rw [hc, ht]
  decide

/-- C16 fails for a forward closure that touches an earlier action: with the
forward closure of the second action `func() error { a0.Commit(); return nil }`
and the third action failing, the unwind of `ExecuteChain(a0, a1, a2)` invokes
the backward closure of `a1` only; `a0`, executed at position 1, is never
undone. -/
theorem earlier_instance_not_undone_when_forward_commits :
    (∀ m, (closuresCommitOther 1 0).exec 1 m = (none, Reentrant.Commit 0 m)) ∧
    (Reentrant.ExecuteChain (closuresCommitOther 1 0) [0, 1, 2] freshMem).1 = some "failed" ∧
    (Reentrant.ExecuteChain (closuresCommitOther 1 0) [0, 1, 2] freshMem).2.calls
      = [Call.exec 0, Call.exec 1, Call.exec 2, Call.undo 1] ∧
    Call.undo 0 ∉ (Reentrant.ExecuteChain (closuresCommitOther 1 0) [0, 1, 2] freshMem).2.calls ∧
    (Reentrant.ExecuteChain (closuresCommitOther 1 0) [0, 1, 2] freshMem).2.calls.count
      (Call.undo 0) ≠ 1 := by
  refine ⟨fun m => rfl, by decide, by decide, by decide, by decide⟩

/-- C17, for callbacks that do not touch the actions: when the failing
action `a` of a chain `pre ++ a :: post` is an instance that also occurs in
`pre`, the unwind does invoke the backward callback of `a`, exactly once, and
`a` ends committed: the failing `Execute` re-armed it.  The backward callback
of the failing action is left out of the unwind exactly when `a` does not
occur in `pre`, and then `a` ends armed. -/
theorem failing_instance_undone_iff_seen_before_no_touch
    (x : Addr → W → Option E × W) (u : Addr → W → W)
    (pre post : List Addr) (a : Addr) (e : E) (m : Mem W)
    (hpre : forwardsSucceed x pre m.world = true)
    (hfail : (x a (forwardWorld x pre m.world)).1 = some e) :
    ∃ t : List Call,
      (Reentrant.ExecuteChain (Closures.ofPlain x u) (pre ++ a :: post) m).2.calls
        = m.calls ++ (pre.map Call.exec ++ [Call.exec a] ++ t) ∧
      (∀ c ∈ t, ∃ q, c = Call.undo q) ∧
      (Call.undo a ∈ t ↔ a ∈ pre) ∧
      (a ∈ pre → t.count (Call.undo a) = 1 ∧
        (Reentrant.ExecuteChain (Closures.ofPlain x u) (pre ++ a :: post) m).2.committed a
          = true) ∧
      (a ∉ pre →
        (Reentrant.ExecuteChain (Closures.ofPlain x u) (pre ++ a :: post) m).2.committed a
          = false) := by
  have hE := ExecuteChain_ofPlain x u (pre ++ a :: post) m
  rw [hE]
  exact failing_instance_undone_iff_seen_before pre post a e (stateOf x u m) hpre hfail

/-- C17 on the retry action, whose forward callback (over the caller world
only) succeeds the first time and fails the second: the chain made of that
one instance twice runs its backward callback once. -/
theorem failing_instance_undone_iff_seen_before_no_touch_witness :
    ∃ t : List Call,
      (Reentrant.ExecuteChain testStateRetry.closures ([0] ++ 0 :: []) testStateRetry.mem).2.calls
        = testStateRetry.mem.calls ++ ([Call.exec 0] ++ [Call.exec 0] ++ t) ∧
      (∀ c ∈ t, ∃ q, c = Call.undo q) ∧
      (Call.undo 0 ∈ t ↔ 0 ∈ [0]) ∧
      (0 ∈ [0] → t.count (Call.undo 0) = 1 ∧
        (Reentrant.ExecuteChain testStateRetry.closures ([0] ++ 0 :: [])
          testStateRetry.mem).2.committed 0 = true) ∧
      (0 ∉ [0] →
        (Reentrant.ExecuteChain testStateRetry.closures ([0] ++ 0 :: [])
          testStateRetry.mem).2.committed 0 = false) :=
  failing_instance_undone_iff_seen_before_no_touch testStateRetry.execOf testStateRetry.undoOf
    [0] [] 0 "already done" testStateRetry.mem (by decide) (by decide)

/-- C17 fails for a forward closure that touches its own action: with the
forward closure `func() error { n++; u.Commit(); ... }` failing from its
second run on, `ExecuteChain(u, u)` has the forward succeed at position 1 and
fail at position 2, but the failing `Execute` leaves `u` committed, so the
deferred `Undo` invokes no backward closure. -/
theorem failing_instance_not_undone_when_forward_commits :
    (∀ m, closuresCommitAndRetry.exec 0 m
      = (if m.world + 1 > 1 then some "failed" else none,
          Reentrant.Commit 0 { m with world := m.world + 1 })) ∧
    (Reentrant.Execute closuresCommitAndRetry 0 freshMem).1 = none ∧
    (Reentrant.Execute closuresCommitAndRetry 0
        (Reentrant.Execute closuresCommitAndRetry 0 freshMem).2).1 = some "failed" ∧
    (Reentrant.ExecuteChain closuresCommitAndRetry [0, 0] freshMem).1 = some "failed" ∧
    (Reentrant.ExecuteChain closuresCommitAndRetry [0, 0] freshMem).2.calls
      = [Call.exec 0, Call.exec 0] ∧
    Call.undo 0 ∉ (Reentrant.ExecuteChain closuresCommitAndRetry [0, 0] freshMem).2.calls := by
  refine ⟨fun m => rfl, by decide, by decide, by decide, by decide, by decide⟩

end undo
